import Mathlib

/-!
Verification development for the plantOpt repository: a shallow embedding of
the scenario-tree generator (`plant_opt/scenario_tree/tree.py`) and of the two
stochastic-recourse model assemblers
(`plant_opt/models/plant_model_stages_recourse_stochastic_pyo.py` and
`plant_opt/models/plant_model_stages_recourse_stochastic_cvx.py`).

Conventions of the embedding:
* Python floats are modelled as rationals (`ℚ`); `numpy` arithmetic
  (`np.clip`, `np.round`) is modelled exactly on `ℚ`.
* The pseudo-random stream `rng.normal(...)` is modelled by an abstract stream
  `draws : Nat → ℚ` consumed one value per generated (child, variable) pair,
  in the same order as the Python code consumes the generator.
* Python dictionaries keyed by strings are association lists
  (`List (String × ℚ)`), with insertion-order preserving update.
* Fallible operations (list indexing, dictionary lookup) return
  `Except String _` / `Option _`.
* Tree nodes are stored in an arena (`List BNode`) in the exact order the
  Python code appends them to `all_nodes`; object references become arena
  indices, `node.parent` becomes `parentIdx : Option Nat`, and
  `node.children` becomes `childIdxs : List Nat`.
-/

namespace PlantOpt

/-- Python-dict read: first binding for the key in an association list. -/
def dictGet : List (String × ℚ) → String → Option ℚ
  | [], _ => none
  | (k0, v) :: rest, k => if k0 = k then some v else dictGet rest k

/-- Python-dict write: replace the binding in place if the key is present,
append it otherwise (preserving insertion order, as a Python dict does). -/
def dictSet : List (String × ℚ) → String → ℚ → List (String × ℚ)
  | [], k, v => [(k, v)]
  | (k0, v0) :: rest, k, v =>
    if k0 = k then (k, v) :: rest else (k0, v0) :: dictSet rest k v

/-- Model of `np.clip(x, lo, hi)`, which computes `min(max(x, lo), hi)`. -/
def clipQ (x lo hi : ℚ) : ℚ := min (max x lo) hi

/-- Round-half-to-even on rationals, the rounding rule used by `np.round`. -/
def roundHalfEven (q : ℚ) : ℤ :=
  if q - ⌊q⌋ < 1/2 then ⌊q⌋
  else if 1/2 < q - ⌊q⌋ then ⌊q⌋ + 1
  else if 2 ∣ ⌊q⌋ then ⌊q⌋ else ⌊q⌋ + 1

/-- Model of `np.round(q, p)`: scale by `10^p`, round half to even, unscale. -/
def roundPlaces (q : ℚ) (p : ℤ) : ℚ := (roundHalfEven (q * 10 ^ p) : ℚ) / 10 ^ p

/-- The optional truncation step of the tree builder: `np.round` when a
`truncate_places` value was supplied, identity otherwise. -/
def applyTrunc : Option ℤ → ℚ → ℚ
  | none, a => a
  | some p, a => roundPlaces a p

/-- One node of the scenario tree, in arena representation: `parentIdx` and
`childIdxs` are indices into the flat `all_nodes` list. -/
structure BNode where
  name : String
  parentIdx : Option Nat
  stage : ℤ
  childIdxs : List Nat
  vals : List (String × ℚ)
  deriving Repr, DecidableEq

/-- The loop `for i, var in enumerate(vars): root.values[var] = start_val[i]`
of `random_walk_tree_builder`; raises `IndexError` when `start_val` is shorter
than `vars`. -/
def initRootVals : List String → List ℚ → List (String × ℚ) →
    Except String (List (String × ℚ))
  | [], _, acc => .ok acc
  | _ :: _, [], _ => .error "IndexError: start_val"
  | v :: vs, s :: ss, acc => initRootVals vs ss (dictSet acc v s)

/-- The inner `for var_idx, var in enumerate(vars)` loop of
`random_walk_tree_builder`, computing one child's `values` dictionary:
for each variable it reads `walk_std[var_idx]` (to draw the step),
reads `walk_max[var_idx]`, clips the drawn step to `[-walk_max, walk_max]`,
optionally rounds it, and adds it to the parent's value.  The abstract draw
stream is consumed once per variable, matching the single `rng.normal` call.
Returns the child's values together with the advanced draw counter. -/
def childValsAux (walk_std walk_max : List ℚ) (tp : Option ℤ) (draws : Nat → ℚ)
    (pvals : List (String × ℚ)) :
    List String → Nat → Nat → List (String × ℚ) →
    Except String (List (String × ℚ) × Nat)
  | [], _, ctr, acc => .ok (acc, ctr)
  | v :: vs, i, ctr, acc =>
    match walk_std.get? i with
    | none => .error "IndexError: walk_std"
    | some _ =>
      match walk_max.get? i with
      | none => .error "IndexError: walk_max"
      | some m =>
        match dictGet pvals v with
        | none => .error "KeyError"
        | some pv =>
          childValsAux walk_std walk_max tp draws pvals vs (i + 1) (ctr + 1)
            (dictSet acc v (pv + applyTrunc tp (clipQ (draws ctr) (-m) m)))

/-- The `for branch in range(branch_factor)` loop for a single parent node:
creates `rem` children (branch indices counting up from `b`), each appended to
the arena; returns the new arena, the advanced draw counter and the list of
the created children's indices.  The parent's name and values are read once;
the Python code reads them per child but never mutates them inside the loop. -/
def makeChildren (vars : List String) (walk_std walk_max : List ℚ)
    (tp : Option ℤ) (draws : Nat → ℚ) (pIdx : Nat) (pname : String)
    (pvals : List (String × ℚ)) (stg : ℤ) :
    Nat → Nat → List BNode → Nat → List Nat →
    Except String (List BNode × Nat × List Nat)
  | _, 0, arena, ctr, acc => .ok (arena, ctr, acc)
  | b, r + 1, arena, ctr, acc =>
    match childValsAux walk_std walk_max tp draws pvals vars 0 ctr [] with
    | .error e => .error e
    | .ok (cvals, ctr2) =>
      makeChildren vars walk_std walk_max tp draws pIdx pname pvals stg
        (b + 1) r
        (arena ++ [⟨pname ++ "_" ++ toString b, some pIdx, stg, [], cvals⟩])
        ctr2 (acc ++ [arena.length])

/-- Record the new children's indices in a parent's `children` list (the
accumulated effect of the `node.add_child(child)` calls of one branch loop). -/
def appendChildren : List BNode → Nat → List Nat → List BNode
  | [], _, _ => []
  | nd :: rest, 0, cs => { nd with childIdxs := nd.childIdxs ++ cs } :: rest
  | nd :: rest, k + 1, cs => nd :: appendChildren rest k cs

/-- Process a single parent node of the current stage: look it up, create its
`branch_factor` children, and record them in its `children` list. -/
def processNode (vars : List String) (walk_std walk_max : List ℚ)
    (tp : Option ℤ) (draws : Nat → ℚ) (stg : ℤ) (bf : Nat) (pIdx : Nat)
    (arena : List BNode) (ctr : Nat) :
    Except String (List BNode × Nat × List Nat) :=
  match arena.get? pIdx with
  | none => .error "invalid parent index"   -- unreachable for builder-produced states
  | some pnode =>
    match makeChildren vars walk_std walk_max tp draws pIdx pnode.name
        pnode.vals stg 0 bf arena ctr [] with
    | .error e => .error e
    | .ok (arena2, ctr2, newIdxs) =>
      .ok (appendChildren arena2 pIdx newIdxs, ctr2, newIdxs)

/-- The `for node in current_nodes` loop of one stage: process each parent in
order, accumulating the next stage's node indices (`next_nodes`). -/
def processStage (vars : List String) (walk_std walk_max : List ℚ)
    (tp : Option ℤ) (draws : Nat → ℚ) (stg : ℤ) (bf : Nat) :
    List Nat → List BNode → Nat → List Nat →
    Except String (List BNode × Nat × List Nat)
  | [], arena, ctr, nextAcc => .ok (arena, ctr, nextAcc)
  | p :: ps, arena, ctr, nextAcc =>
    match processNode vars walk_std walk_max tp draws stg bf p arena ctr with
    | .error e => .error e
    | .ok (arena2, ctr2, newIdxs) =>
      processStage vars walk_std walk_max tp draws stg bf ps arena2 ctr2
        (nextAcc ++ newIdxs)

/-- The `for stage in range(1, stages)` loop: `r` counts the remaining
iterations, `stg` is the Python loop variable (next stage index to build). -/
def buildStages (vars : List String) (walk_std walk_max : List ℚ)
    (tp : Option ℤ) (draws : Nat → ℚ) (bf : Nat) :
    Nat → ℤ → List Nat → List BNode → Nat → Except String (List BNode)
  | 0, _, _, arena, _ => .ok arena
  | r + 1, stg, current, arena, ctr =>
    match processStage vars walk_std walk_max tp draws stg bf current
        arena ctr [] with
    | .error e => .error e
    | .ok (arena2, ctr2, next) =>
      buildStages vars walk_std walk_max tp draws bf r (stg + 1) next
        arena2 ctr2

/-- Model of `random_walk_tree_builder`: returns the flat `all_nodes` arena,
whose index 0 is the root.  `range(1, stages)` runs `max 0 (stages - 1)` times
and `range(branch_factor)` runs `max 0 branch_factor` times, which is exactly
what `Int.toNat` yields; no validation of `stages`, `branch_factor`, or the
parameter-list lengths is performed, mirroring the source. -/
def random_walk_tree_builder (vars : List String)
    (start_val walk_std walk_max : List ℚ) (stages branch_factor : ℤ)
    (draws : Nat → ℚ) (truncate_places : Option ℤ) :
    Except String (List BNode) :=
  match initRootVals vars start_val [] with
  | .error e => .error e
  | .ok rvals =>
    buildStages vars walk_std walk_max truncate_places draws
      branch_factor.toNat (stages - 1).toNat 1 [0]
      [⟨"root", none, 0, [], rvals⟩] 0

/-- Python list read with Python index semantics: a negative index is offset
by the length; any index outside `[-len, len)` raises `IndexError`. -/
def pyListGet {α : Type} (l : List α) (i : ℤ) : Except String α :=
  let j : ℤ := if i < 0 then i + l.length else i
  if h : 0 ≤ j ∧ j < l.length then
    .ok (l.get ⟨j.toNat, by omega⟩)
  else .error "IndexError: list index out of range"

/-- Model of `Node.__getitem__`: raise when there are no children, raise when
`item > len(children)` (note the source's strict `>`; `item == len(children)`
slips past this guard and the underlying list access raises instead), and
otherwise defer to Python list indexing. -/
def pyGetItem {α : Type} (children : List α) (item : ℤ) : Except String α :=
  if children.isEmpty then .error "Node has no children"
  else if (children.length : ℤ) < item then .error "Node has fewer children"
  else pyListGet children item

/-- Boolean success test for `Except`. -/
def exceptIsOk {ε α : Type} : Except ε α → Bool
  | .ok _ => true
  | .error _ => false

/-- Signed difference between a child node's stored value and its parent's
stored value for a variable, read off a builder result (used to examine the
step-clamping behaviour on concrete trees). -/
def childParentGap (res : Except String (List BNode)) (cIdx : Nat) (v : String) :
    Option ℚ :=
  match res with
  | .error _ => none
  | .ok t =>
    match t.get? cIdx with
    | none => none
    | some nd =>
      match nd.parentIdx with
      | none => none
      | some p =>
        match t.get? p with
        | none => none
        | some pnd =>
          match dictGet pnd.vals v, dictGet nd.vals v with
          | some x, some y => some (y - x)
          | _, _ => none

/-- The slack that the optional `np.round` step can add on top of the clamp
bound: half of one unit in the last kept decimal place. -/
def truncSlack : Option ℤ → ℚ
  | none => 0
  | some p => 1/2 * (1/10 : ℚ) ^ p

/-! ### Model-assembler embedding

Nodes as consumed by the two `Plant` assemblers.  Realized per-node values
(`node.values[...]`) are modelled as a total map `String → ℚ`; the Python
code raises `KeyError` on a missing key, and every key the assembler reads is
supplied by the tree generator for well-formed inputs, so the claims below
are stated on trees carrying total value maps. -/

structure PNode where
  parentIdx : Option Nat
  stage : ℤ
  childIdxs : List Nat
  values : String → ℚ

/-- Children list of node `i` of an arena tree (empty when out of range). -/
def childIdxsOf (t : List PNode) (i : Nat) : List Nat :=
  ((t.get? i).map PNode.childIdxs).getD []

/-- Parent of node `i` (`node.parent`, as an arena index). -/
def parentOf (t : List PNode) (i : Nat) : Option Nat :=
  (t.get? i).bind PNode.parentIdx

/-- Grandparent of node `i` (`node.parent.parent`). -/
def parent2Of (t : List PNode) (i : Nat) : Option Nat :=
  (parentOf t i).bind (parentOf t)

/-- Stage of node `i` (0 when out of range; the assembler only reads stages
of nodes of the flat list). -/
def stageOf (t : List PNode) (i : Nat) : ℤ :=
  ((t.get? i).map PNode.stage).getD 0

/-- Realized value `node.values[k]` of node `i`. -/
def valueOf (t : List PNode) (i : Nat) (k : String) : ℚ :=
  ((t.get? i).map (fun nd => nd.values k)).getD 0

/-- The `stage_node_count` tally: how many nodes of the flat list share a
stage. -/
def stageCount (t : List PNode) (s : ℤ) : ℕ :=
  (t.filter (fun nd => nd.stage = s)).length

/-- Key `f"prod_price_{output}"`. -/
def keyPP (o : Nat) : String := "prod_price_" ++ toString o

/-- Key `f"demand_{output}"`. -/
def keyDemand (o : Nat) : String := "demand_" ++ toString o

/-! #### Variable-allocation traversals

Each builder keeps a FIFO work list (`nodes_to_process`), pops the front,
assigns a variable to the popped node and appends (a subset of) its children.
The fuel argument bounds the number of pops; `t.length` pops suffice for
every tree the生成器 produces, since each node is enqueued at most once. -/

/-- Queue loop of the pyomo `build_non_recourse_var` (and of
`build_non_recourse_var_list`, whose traversal is identical): children are
enqueued only when they themselves have children. -/
def pyoNonRecourseAux (t : List PNode) : Nat → List Nat → List Nat
  | 0, _ => []
  | _ + 1, [] => []
  | fuel + 1, i :: rest =>
    i :: pyoNonRecourseAux t fuel
      (rest ++ (childIdxsOf t i).filter (fun c => !(childIdxsOf t c).isEmpty))

/-- Nodes that receive a pyomo non-recourse variable, in assignment order. -/
def pyoNonRecourseKeys (t : List PNode) : List Nat :=
  pyoNonRecourseAux t t.length [0]

/-- Queue loop of the pyomo `build_recourse_var` (and of
`build_intermediate_to_unit_var`): starts from the root's children and
descends into every child. -/
def pyoRecourseAux (t : List PNode) : Nat → List Nat → List Nat
  | 0, _ => []
  | _ + 1, [] => []
  | fuel + 1, i :: rest => i :: pyoRecourseAux t fuel (rest ++ childIdxsOf t i)

/-- Nodes that receive a pyomo recourse variable, in assignment order. -/
def pyoRecourseKeys (t : List PNode) : List Nat :=
  pyoRecourseAux t t.length (childIdxsOf t 0)

/-- Queue loop of the cvxpy `build_non_recourse_var`. -/
def cvxNonRecourseAux (t : List PNode) : Nat → List Nat → List Nat
  | 0, _ => []
  | _ + 1, [] => []
  | fuel + 1, i :: rest =>
    i :: cvxNonRecourseAux t fuel
      (rest ++ (childIdxsOf t i).filter (fun c => !(childIdxsOf t c).isEmpty))

/-- Nodes that receive a cvxpy non-recourse variable, in assignment order. -/
def cvxNonRecourseKeys (t : List PNode) : List Nat :=
  cvxNonRecourseAux t t.length [0]

/-- Queue loop of the cvxpy `build_recourse_var`. -/
def cvxRecourseAux (t : List PNode) : Nat → List Nat → List Nat
  | 0, _ => []
  | _ + 1, [] => []
  | fuel + 1, i :: rest => i :: cvxRecourseAux t fuel (rest ++ childIdxsOf t i)

/-- Nodes that receive a cvxpy recourse variable, in assignment order. -/
def cvxRecourseKeys (t : List PNode) : List Nat :=
  cvxRecourseAux t t.length (childIdxsOf t 0)

/-! #### Constraints and objective -/

/-- Plant parameters shared by both assemblers.  Ratio matrices and capacity
lists are modelled as total maps; a shape mismatch raises in Python, which no
claim below exercises. -/
structure Params where
  crude_distil_cap : ℚ
  products : ℕ
  crude_ratios : Nat → Nat → ℚ
  refine_caps : Nat → ℚ
  product_ratios : Nat → Nat → ℚ
  allowed_output_change : ℚ
  stages : ℤ

/-- One joint valuation of all decision variables of either assembler,
indexed by node.  For the routing block `i2u`, the pyomo assembler addresses
entry `(a, b)` as (intermediate `a`, output `b`) while the cvxpy assembler
addresses it as (output `a`, intermediate `b`); the claims relate the two via
`transposeI2U`. -/
structure Assign where
  light : Nat → ℚ
  heavy : Nat → ℚ
  inter : Nat → Nat → ℚ
  i2u : Nat → Nat → Nat → ℚ
  out : Nat → Nat → ℚ
  full : Nat → Nat → ℚ
  excess : Nat → Nat → ℚ

/-- The variable identification between the two assemblers: flip the index
order of the routing block, leave every other block unchanged. -/
def transposeI2U (σ : Assign) : Assign :=
  { σ with i2u := fun n a b => σ.i2u n b a }

/-- Comparison kind of an emitted constraint. -/
inductive Rel
  | eq
  | le
  | ge
  deriving DecidableEq

/-- One scalar constraint: a comparison between two affine expressions,
represented semantically as functions of the joint valuation.  A cvxpy
vector constraint is represented componentwise. -/
structure Con where
  rel : Rel
  lhs : Assign → ℚ
  rhs : Assign → ℚ

/-- Whether a valuation satisfies a constraint. -/
def Con.sat (c : Con) (σ : Assign) : Prop :=
  match c.rel with
  | .eq => c.lhs σ = c.rhs σ
  | .le => c.lhs σ ≤ c.rhs σ
  | .ge => c.rhs σ ≤ c.lhs σ

/-- Association-list lookup for node-keyed constraint dictionaries. -/
def alookup {α : Type} : List (Nat × α) → Nat → Option α
  | [], _ => none
  | (k, v) :: rest, i => if k = i then some v else alookup rest i

/-- A node-keyed dictionary built by one `for node in m.nodes` loop with a
skip condition: one entry per node index satisfying the condition, in
iteration order. -/
def mkDict {α : Type} (len : Nat) (cond : Nat → Bool) (f : Nat → α) :
    List (Nat × α) :=
  (List.range len).filterMap (fun i => if cond i then some (i, f i) else none)

/-- Whether a valuation satisfies every constraint a dictionary holds for a
node (vacuously true for nodes without an entry). -/
def satDict (d : List (Nat × List Con)) (i : Nat) (σ : Assign) : Prop :=
  ∀ c ∈ (alookup d i).getD [], c.sat σ

/-- Skip condition `if not node.children: continue` (internal nodes only). -/
def internalCond (t : List PNode) (i : Nat) : Bool :=
  !(childIdxsOf t i).isEmpty

/-- Skip condition `if not node.parent: continue` (non-root nodes only). -/
def nonRootCond (t : List PNode) (i : Nat) : Bool :=
  (parentOf t i).isSome

/-- Skip condition `if not node.parent or not node.parent.parent: continue`
(nodes of stage at least 2). -/
def stage2Cond (t : List PNode) (i : Nat) : Bool :=
  (parent2Of t i).isSome

/-- pyomo `distil_const`: at every internal node, each intermediate equals
the yield-weighted imports. -/
def pyoDistil (P : Params) (t : List PNode) : List (Nat × List Con) :=
  mkDict t.length (internalCond t) (fun i =>
    (List.range P.products).map (fun prod =>
      ⟨.eq, fun σ => σ.inter i prod,
        fun σ => σ.light i * P.crude_ratios prod 0
          + σ.heavy i * P.crude_ratios prod 1⟩))

/-- pyomo `distil_cap_const`: at every internal node, total imports are
bounded by the distillation capacity. -/
def pyoDistilCap (P : Params) (t : List PNode) : List (Nat × List Con) :=
  mkDict t.length (internalCond t) (fun i =>
    [⟨.le, fun σ => σ.light i + σ.heavy i, fun _ => P.crude_distil_cap⟩])

/-- pyomo `product_out_const`: at every non-root node, each output equals the
ratio-weighted column sum of the routing block (pyomo addresses the block as
(intermediate, output)). -/
def pyoProductOut (P : Params) (t : List PNode) : List (Nat × List Con) :=
  mkDict t.length (nonRootCond t) (fun i =>
    (List.range P.products).map (fun output =>
      ⟨.eq, fun σ => σ.out i output,
        fun σ => ∑ prod in Finset.range P.products,
          σ.i2u i prod output * P.product_ratios output prod⟩))

/-- pyomo `refine_cap_const`: at every non-root node, the total routed into
each output's unit is bounded by that unit's capacity. -/
def pyoRefineCap (P : Params) (t : List PNode) : List (Nat × List Con) :=
  mkDict t.length (nonRootCond t) (fun i =>
    (List.range P.products).map (fun output =>
      ⟨.le, fun σ => ∑ prod in Finset.range P.products, σ.i2u i prod output,
        fun _ => P.refine_caps output⟩))

/-- pyomo `intermediates_rule`: at every non-root node, the parent's
intermediate quantity equals the sum of that intermediate routed to all
units at the node. -/
def pyoInterRule (P : Params) (t : List PNode) : List (Nat × List Con) :=
  mkDict t.length (nonRootCond t) (fun i =>
    (List.range P.products).map (fun prod =>
      ⟨.eq, fun σ => σ.inter ((parentOf t i).getD 0) prod,
        fun σ => ∑ output in Finset.range P.products, σ.i2u i prod output⟩))

/-- pyomo `breakdown_const`: at every non-root node, each output splits into
its at-price part and its excess part. -/
def pyoBreakdown (P : Params) (t : List PNode) : List (Nat × List Con) :=
  mkDict t.length (nonRootCond t) (fun i =>
    (List.range P.products).map (fun output =>
      ⟨.eq, fun σ => σ.out i output,
        fun σ => σ.full i output + σ.excess i output⟩))

/-- pyomo `demand_const`: at every non-root node, the at-price part is
bounded by the node's realized demand. -/
def pyoDemand (P : Params) (t : List PNode) : List (Nat × List Con) :=
  mkDict t.length (nonRootCond t) (fun i =>
    (List.range P.products).map (fun output =>
      ⟨.le, fun σ => σ.full i output, fun _ => valueOf t i (keyDemand output)⟩))

/-- pyomo `interstage_const`: at every node whose parent has a parent, the
output change relative to the parent is bounded both ways (upper then lower
constraint appended per output, as in the source loop). -/
def pyoInterstage (P : Params) (t : List PNode) : List (Nat × List Con) :=
  mkDict t.length (stage2Cond t) (fun i =>
    (List.range P.products).flatMap (fun output =>
      [⟨.le, fun σ => σ.out i output,
         fun σ => σ.out ((parentOf t i).getD 0) output
           + P.allowed_output_change⟩,
       ⟨.ge, fun σ => σ.out i output,
         fun σ => σ.out ((parentOf t i).getD 0) output
           - P.allowed_output_change⟩]))

/-- The pyomo per-node objective contributions (`node_value_list`): for every
non-root node, the at-price revenue at the node's realized prices minus the
cost of the parent's imports at the node's realized crude prices, divided by
the number of nodes sharing the node's stage. -/
def pyoNodeValues (P : Params) (t : List PNode) (σ : Assign) : List ℚ :=
  (List.range t.length).filterMap (fun i =>
    match parentOf t i with
    | none => none
    | some p =>
      some ((((List.range P.products).foldl
          (fun acc output => acc + σ.full i output * valueOf t i (keyPP output)) 0)
          - σ.light p * valueOf t i "crude_light_price"
          - σ.heavy p * valueOf t i "crude_heavy_price")
        / (stageCount t (stageOf t i) : ℚ)))

/-- Objective sense marker. -/
inductive Sense
  | maximize
  | minimize
  deriving DecidableEq

/-- The pyomo objective: `pmo.objective(sum(node_value_list), sense=maximize)`. -/
def pyoObjectiveVal (P : Params) (t : List PNode) (σ : Assign) : ℚ :=
  (pyoNodeValues P t σ).sum

/-- Sense of the pyomo objective. -/
def pyoObjectiveSense : Sense := .maximize

/-- cvxpy `distil_const` (vector equality, componentwise). -/
def cvxDistil (P : Params) (t : List PNode) : List (Nat × List Con) :=
  mkDict t.length (internalCond t) (fun i =>
    (List.range P.products).map (fun prod =>
      ⟨.eq, fun σ => σ.inter i prod,
        fun σ => σ.light i * P.crude_ratios prod 0
          + σ.heavy i * P.crude_ratios prod 1⟩))

/-- cvxpy `distil_cap_const`. -/
def cvxDistilCap (P : Params) (t : List PNode) : List (Nat × List Con) :=
  mkDict t.length (internalCond t) (fun i =>
    [⟨.le, fun σ => σ.light i + σ.heavy i, fun _ => P.crude_distil_cap⟩])

/-- cvxpy `product_out_const`: `product_output == diag(i2u @ product_ratios.T)`;
component `output` of the diagonal is the row contraction of the routing
block (cvxpy addresses the block as (output, intermediate)). -/
def cvxProductOut (P : Params) (t : List PNode) : List (Nat × List Con) :=
  mkDict t.length (nonRootCond t) (fun i =>
    (List.range P.products).map (fun output =>
      ⟨.eq, fun σ => σ.out i output,
        fun σ => ∑ prod in Finset.range P.products,
          σ.i2u i output prod * P.product_ratios output prod⟩))

/-- cvxpy `refine_cap_const`: `i2u @ ones <= refine_caps` (row sums). -/
def cvxRefineCap (P : Params) (t : List PNode) : List (Nat × List Con) :=
  mkDict t.length (nonRootCond t) (fun i =>
    (List.range P.products).map (fun output =>
      ⟨.le, fun σ => ∑ prod in Finset.range P.products, σ.i2u i output prod,
        fun _ => P.refine_caps output⟩))

/-- cvxpy `intermediates_rule`: `i2u.T @ ones == intermediates[parent]`
(column sums on the left, as in the source). -/
def cvxInterRule (P : Params) (t : List PNode) : List (Nat × List Con) :=
  mkDict t.length (nonRootCond t) (fun i =>
    (List.range P.products).map (fun prod =>
      ⟨.eq, fun σ => ∑ output in Finset.range P.products, σ.i2u i output prod,
        fun σ => σ.inter ((parentOf t i).getD 0) prod⟩))

/-- cvxpy `breakdown_const`. -/
def cvxBreakdown (P : Params) (t : List PNode) : List (Nat × List Con) :=
  mkDict t.length (nonRootCond t) (fun i =>
    (List.range P.products).map (fun output =>
      ⟨.eq, fun σ => σ.out i output,
        fun σ => σ.full i output + σ.excess i output⟩))

/-- cvxpy `demand_const`. -/
def cvxDemand (P : Params) (t : List PNode) : List (Nat × List Con) :=
  mkDict t.length (nonRootCond t) (fun i =>
    (List.range P.products).map (fun output =>
      ⟨.le, fun σ => σ.full i output, fun _ => valueOf t i (keyDemand output)⟩))

/-- cvxpy `interstage_const_upper`. -/
def cvxInterstageUpper (P : Params) (t : List PNode) : List (Nat × List Con) :=
  mkDict t.length (stage2Cond t) (fun i =>
    (List.range P.products).map (fun output =>
      ⟨.le, fun σ => σ.out i output,
        fun σ => σ.out ((parentOf t i).getD 0) output
          + P.allowed_output_change⟩))

/-- cvxpy `interstage_const_lower`. -/
def cvxInterstageLower (P : Params) (t : List PNode) : List (Nat × List Con) :=
  mkDict t.length (stage2Cond t) (fun i =>
    (List.range P.products).map (fun output =>
      ⟨.ge, fun σ => σ.out i output,
        fun σ => σ.out ((parentOf t i).getD 0) output
          - P.allowed_output_change⟩))

/-- The cvxpy per-node objective contributions (`node_value_list`); the loop
is identical to the pyomo one. -/
def cvxNodeValues (P : Params) (t : List PNode) (σ : Assign) : List ℚ :=
  (List.range t.length).filterMap (fun i =>
    match parentOf t i with
    | none => none
    | some p =>
      some ((((List.range P.products).foldl
          (fun acc output => acc + σ.full i output * valueOf t i (keyPP output)) 0)
          - σ.light p * valueOf t i "crude_light_price"
          - σ.heavy p * valueOf t i "crude_heavy_price")
        / (stageCount t (stageOf t i) : ℚ)))

/-- `calculate_node_objective`: the unscaled contribution of one node (the
recursive accumulator only calls it on nodes with a parent; the root branch
is unreachable there). -/
def calcNodeObjective (P : Params) (t : List PNode) (σ : Assign) (i : Nat) : ℚ :=
  match parentOf t i with
  | none => 0
  | some p =>
    ((List.range P.products).foldl
        (fun acc output => acc + σ.full i output * valueOf t i (keyPP output)) 0)
      - σ.light p * valueOf t i "crude_light_price"
      - σ.heavy p * valueOf t i "crude_heavy_price"

/-- `calculate_node_objective_recursive`: accumulate contributions along the
parent chain, stopping at the root.  The fuel argument caps the recursion;
`t.length` suffices since parent chains are acyclic in generated trees. -/
def calcNodeObjectiveRec (P : Params) (t : List PNode) (σ : Assign) :
    Nat → Nat → ℚ
  | 0, _ => 0
  | fuel + 1, i =>
    match parentOf t i with
    | none => 0
    | some p => calcNodeObjective P t σ i + calcNodeObjectiveRec P t σ fuel p

/-- Terminal nodes as selected by the cvxpy assembler:
`node.stage == stages - 1`. -/
def cvxTerminalIdxs (P : Params) (t : List PNode) : List Nat :=
  (List.range t.length).filter (fun i => stageOf t i == P.stages - 1)

/-- `terminal_values`: the per-scenario path sums, in node order. -/
def cvxTerminalValues (P : Params) (t : List PNode) (σ : Assign) : List ℚ :=
  (cvxTerminalIdxs P t).map (fun i => calcNodeObjectiveRec P t σ t.length i)

/-- The CVaR term of the cvxpy objective:
`cp.cvar(-hstack(terminal_values), beta) * weight` when the `cvar` option is
supplied, `0` otherwise.  `cp.cvar` itself is external library code (the
solver side of the boundary), modelled by an arbitrary function `cvarFn` of
the negated path values and `beta`. -/
def cvxCvarTerm (P : Params) (t : List PNode) (cvarFn : List ℚ → ℚ → ℚ)
    (cvar : Option (ℚ × ℚ)) (σ : Assign) : ℚ :=
  match cvar with
  | none => 0
  | some bw => cvarFn ((cvxTerminalValues P t σ).map Neg.neg) bw.1 * bw.2

/-- The cvxpy objective value: `Maximize(sum(node_value_list) - cvar_term)`. -/
def cvxObjectiveVal (P : Params) (t : List PNode) (cvarFn : List ℚ → ℚ → ℚ)
    (cvar : Option (ℚ × ℚ)) (σ : Assign) : ℚ :=
  (cvxNodeValues P t σ).sum - cvxCvarTerm P t cvarFn cvar σ

/-- Sense of the cvxpy objective. -/
def cvxObjectiveSense : Sense := .maximize

/-- A one-node tree (what the generator returns for `stages = 1`): the root
is terminal. -/
def oneNodePTree : List PNode := [⟨none, 0, [], fun _ => 0⟩]

/-- A two-node tree: root and a single terminal child. -/
def twoNodePTree : List PNode :=
  [⟨none, 0, [1], fun _ => 0⟩, ⟨some 0, 1, [], fun _ => 0⟩]

/-- A small concrete parameter set (used to instantiate witnesses). -/
def sampleParams : Params :=
  ⟨500, 3, fun _ _ => 1, fun _ => 1000, fun _ _ => 1, 1000, 2⟩

/-- A node's values dictionary holds an entry for every tracked variable. -/
def NodeDomOK (vars : List String) (nd : BNode) : Prop :=
  ∀ v ∈ vars, (dictGet nd.vals v).isSome

/-- All nodes of an arena have full value dictionaries. -/
def AllDomOK (vars : List String) (arena : List BNode) : Prop :=
  ∀ j nd, arena.get? j = some nd → NodeDomOK vars nd

/-- Invariant of the generator's stage loop, midway through processing one
stage: `rest` are the still-unprocessed frontier nodes (at stage `stg - 1`),
`next` the children created so far (at stage `stg`).  It packages the
structural tree invariants (single valid parent pointing backwards, stage
increments, flat-list closure, the frontier being exactly the childless
nodes) together with the provenance of every non-root node's values
dictionary (an output of the per-child value loop run on its parent's
values). -/
structure MidInv (vars : List String) (walk_std walk_max : List ℚ)
    (tp : Option ℤ) (draws : Nat → ℚ) (arena : List BNode)
    (rest next : List Nat) (stg : ℤ) : Prop where
  root_def : ∃ rt, arena.get? 0 = some rt ∧ rt.parentIdx = none ∧ rt.stage = 0
  parent_link : ∀ j nd, arena.get? j = some nd → j ≠ 0 →
    ∃ p pnd, nd.parentIdx = some p ∧ p < j ∧ arena.get? p = some pnd
      ∧ nd.stage = pnd.stage + 1 ∧ j ∈ pnd.childIdxs
  child_link : ∀ j nd c, arena.get? j = some nd → c ∈ nd.childIdxs →
    j < c ∧ ∃ cnd, arena.get? c = some cnd ∧ cnd.parentIdx = some j
  frontier : ∀ j nd, arena.get? j = some nd →
    (nd.childIdxs = [] ↔ (j ∈ rest ∨ j ∈ next))
  rest_stage : ∀ j ∈ rest, ∃ nd, arena.get? j = some nd ∧ nd.stage = stg - 1
  next_stage : ∀ j ∈ next, ∃ nd, arena.get? j = some nd ∧ nd.stage = stg
  queue_nodup : (rest ++ next).Nodup
  queue_valid : ∀ j ∈ rest ++ next, j < arena.length
  vals_link : ∀ j nd, arena.get? j = some nd → j ≠ 0 →
    ∃ p pnd c1 c2, nd.parentIdx = some p ∧ arena.get? p = some pnd
      ∧ childValsAux walk_std walk_max tp draws pnd.vals vars 0 c1 []
          = .ok (nd.vals, c2)

/-- The tree the generator returns for one variable `x` starting at 0,
`stages = 2`, `branch_factor = 1`, and an all-zero draw stream. -/
def sampleBuiltTree : List BNode :=
  [⟨"root", none, 0, [1], [("x", 0)]⟩,
   ⟨"root_0", some 0, 1, [], [("x", 0)]⟩]

/-! ## Lemmas and claim theorems -/

theorem dictGet_dictSet (d : List (String × ℚ)) (k k2 : String) (v : ℚ) :
    dictGet (dictSet d k v) k2 = if k = k2 then some v else dictGet d k2 := by
  induction d with
  | nil =>
    by_cases h : k = k2 <;> simp [dictGet, dictSet, h]
  | cons hd tl ih =>
    obtain ⟨k0, v0⟩ := hd
    by_cases h0 : k0 = k
    · subst h0
      by_cases h : k0 = k2 <;> simp [dictGet, dictSet, h]
    · by_cases h : k0 = k2
      · subst h
        have : ¬ k = k0 := fun he => h0 he.symm
        simp [dictGet, dictSet, h0, this]
      · simp [dictGet, dictSet, h0, h, ih]

theorem dictGet_isSome_dictSet (d : List (String × ℚ)) (k k2 : String) (v : ℚ)
    (h : (dictGet d k2).isSome) : (dictGet (dictSet d k v) k2).isSome := by
  rw [dictGet_dictSet]
  by_cases he : k = k2 <;> simp [he, h]

theorem fract_eq_sub_floor (q : ℚ) : Int.fract q = q - ⌊q⌋ := rfl

theorem abs_roundHalfEven_sub (q : ℚ) : |(roundHalfEven q : ℚ) - q| ≤ 1/2 := by
  have h0 : (0 : ℚ) ≤ q - ⌊q⌋ := by
    have := Int.fract_nonneg q
    rwa [fract_eq_sub_floor] at this
  have h1 : q - ⌊q⌋ < 1 := by
    have := Int.fract_lt_one q
    rwa [fract_eq_sub_floor] at this
  unfold roundHalfEven
  by_cases hlt : q - ⌊q⌋ < 1/2
  · rw [if_pos hlt]
    rw [abs_le]
    constructor <;> linarith
  · rw [if_neg hlt]
    by_cases hgt : 1/2 < q - ⌊q⌋
    · rw [if_pos hgt]
      rw [abs_le]
      push_cast
      constructor <;> linarith
    · rw [if_neg hgt]
      have heq : q - ⌊q⌋ = 1/2 := le_antisymm (not_lt.mp hgt) (not_lt.mp hlt)
      by_cases hdvd : 2 ∣ ⌊q⌋
      · rw [if_pos hdvd, abs_le]
        constructor <;> linarith
      · rw [if_neg hdvd, abs_le]
        push_cast
        constructor <;> linarith

theorem abs_roundPlaces_sub (q : ℚ) (p : ℤ) :
    |roundPlaces q p - q| ≤ 1/2 * (1/10 : ℚ) ^ p := by
  have hpow : (0 : ℚ) < 10 ^ p := zpow_pos (by norm_num) p
  have key : roundPlaces q p - q
      = ((roundHalfEven (q * 10 ^ p) : ℚ) - q * 10 ^ p) / 10 ^ p := by
    unfold roundPlaces
    field_simp
    ring
  rw [key, abs_div, abs_of_pos hpow, div_le_iff₀ hpow]
  have hb := abs_roundHalfEven_sub (q * 10 ^ p)
  have hrw : (1/2 : ℚ) * (1/10 : ℚ) ^ p * 10 ^ p = 1/2 := by
    have : ((1 : ℚ)/10) ^ p = 1 / 10 ^ p := by
      rw [div_zpow, one_zpow]
    rw [this]
    field_simp
    ring
  rw [hrw]
  exact hb

theorem abs_clipQ_le (x m : ℚ) (hm : 0 ≤ m) : |clipQ x (-m) m| ≤ m := by
  unfold clipQ
  rw [abs_le]
  constructor
  · exact le_min (le_max_right x (-m)) (by linarith)
  · exact min_le_right _ _

theorem abs_applyTrunc_clipQ_le (tp : Option ℤ) (x m : ℚ) (hm : 0 ≤ m) :
    |applyTrunc tp (clipQ x (-m) m)| ≤ m + truncSlack tp := by
  cases tp with
  | none =>
    simp only [applyTrunc, truncSlack, add_zero]
    exact abs_clipQ_le x m hm
  | some p =>
    simp only [applyTrunc, truncSlack]
    have h1 := abs_roundPlaces_sub (clipQ x (-m) m) p
    have h2 := abs_clipQ_le x m hm
    calc |roundPlaces (clipQ x (-m) m) p|
        ≤ |roundPlaces (clipQ x (-m) m) p - clipQ x (-m) m| + |clipQ x (-m) m| := by
          have := abs_add (roundPlaces (clipQ x (-m) m) p - clipQ x (-m) m)
            (clipQ x (-m) m)
          simpa using this
      _ ≤ m + 1/2 * (1/10 : ℚ) ^ p := by linarith
      _ = m + 1/2 * (1/10 : ℚ) ^ p := rfl

/-- Claim C10: `Node.__getitem__` returns the `i`-th child under Python list
semantics (negative indices included) exactly on `-len ≤ i < len` for a node
with children, and raises `IndexError` for every other integer and for every
index of a childless node. -/
theorem claim_C10_getitem (α : Type) (l : List α) (i : ℤ) :
    (l = [] → ∃ e, pyGetItem l i = Except.error e)
    ∧ (l ≠ [] → -(l.length : ℤ) ≤ i → i < l.length →
        ∃ x, pyGetItem l i = Except.ok x
          ∧ l.get? (if i < 0 then i + l.length else i).toNat = some x)
    ∧ (l ≠ [] → (i < -(l.length : ℤ) ∨ (l.length : ℤ) ≤ i) →
        ∃ e, pyGetItem l i = Except.error e) := by
  refine ⟨?_, ?_, ?_⟩
  · intro hnil
    subst hnil
    exact ⟨_, rfl⟩
  · intro hne hlo hhi
    have hempty : l.isEmpty = false := by
      cases l with
      | nil => exact absurd rfl hne
      | cons a as => rfl
    have hguard : ¬ ((l.length : ℤ) < i) := by omega
    have hj : 0 ≤ (if i < 0 then i + l.length else i)
        ∧ (if i < 0 then i + l.length else i) < l.length := by
      by_cases hneg : i < 0 <;> simp [hneg] <;> omega
    have hjlt : (if i < 0 then i + l.length else i).toNat < l.length := by omega
    refine ⟨l.get ⟨(if i < 0 then i + l.length else i).toNat, hjlt⟩, ?_, ?_⟩
    · simp only [pyGetItem, hempty, Bool.false_eq_true, if_false, hguard,
        pyListGet]
      rw [dif_pos hj]
    · exact List.get?_eq_get hjlt
  · intro hne hout
    have hempty : l.isEmpty = false := by
      cases l with
      | nil => exact absurd rfl hne
      | cons a as => rfl
    by_cases hgt : (l.length : ℤ) < i
    · exact ⟨"Node has fewer children", by simp [pyGetItem, hempty, hgt]⟩
    · have hj : ¬ (0 ≤ (if i < 0 then i + (l.length : ℤ) else i)
          ∧ (if i < 0 then i + (l.length : ℤ) else i) < l.length) := by
        by_cases hneg : i < 0
        · rw [if_pos hneg]
          omega
        · rw [if_neg hneg]
          omega
      refine ⟨"IndexError: list index out of range", ?_⟩
      simp only [pyGetItem, hempty, Bool.false_eq_true, if_false, hgt,
        pyListGet]
      rw [dif_neg hj]

/-- Witness for C10 at a two-element list and the negative index `-1`. -/
theorem claim_C10_getitem_witness :
    ∃ x, pyGetItem ([10, 20] : List ℕ) (-1) = Except.ok x
      ∧ ([10, 20] : List ℕ).get?
          (if (-1 : ℤ) < 0 then (-1 : ℤ) + (([10, 20] : List ℕ).length : ℤ)
            else (-1 : ℤ)).toNat
        = some x :=
  (claim_C10_getitem ℕ [10, 20] (-1)).2.1 (by decide) (by decide) (by decide)

/-- Counterexample to claim C4 as stated: with `stages = 0 < 1` (and
well-formed parameter lists) the builder returns a tree — a lone root —
rather than failing. -/
theorem claim_C4_counterexample :
    (0 : ℤ) < 1
    ∧ exceptIsOk
        (random_walk_tree_builder ["x"] [1] [1] [1] 0 2 (fun _ => 0) none)
      = true := by
  constructor
  · decide
  · rfl

/-- Counterexample to claim C5 as stated: with `walk_max = 3/50` and
`truncate_places = 1`, a draw of `1` is clipped to `3/50 = 0.06` and then
rounded to `1/10`, so the child moved farther than `walk_max` from its
parent. -/
theorem claim_C5_counterexample :
    childParentGap
        (random_walk_tree_builder ["x"] [0] [1] [3/50] 2 1 (fun _ => 1)
          (some 1)) 1 "x"
      = some (1/10)
    ∧ (3/50 : ℚ) < 1/10 := by
  constructor
  · norm_num [childParentGap, random_walk_tree_builder, initRootVals,
      buildStages, processStage, processNode, makeChildren, childValsAux,
      dictGet, dictSet, appendChildren, applyTrunc, clipQ, roundPlaces,
      roundHalfEven, min_def, max_def]
  · norm_num

/-- Counterexample to claim C3 as stated: on a one-node tree the root is
terminal (no children) yet non-recourse allocation assigns it a variable. -/
theorem claim_C3_counterexample :
    pyoNonRecourseKeys oneNodePTree = [0] ∧ childIdxsOf oneNodePTree 0 = [] := by
  constructor
  · rfl
  · rfl

theorem alookup_append {α : Type} (l1 l2 : List (Nat × α)) (i : Nat) :
    alookup (l1 ++ l2) i =
      match alookup l1 i with
      | some v => some v
      | none => alookup l2 i := by
  induction l1 with
  | nil => simp [alookup]
  | cons hd tl ih =>
    obtain ⟨k, v⟩ := hd
    by_cases h : k = i <;> simp [alookup, h, ih]

theorem mkDict_succ {α : Type} (n : ℕ) (cond : Nat → Bool) (f : Nat → α) :
    mkDict (n + 1) cond f
      = mkDict n cond f ++ (if cond n then [(n, f n)] else []) := by
  unfold mkDict
  rw [List.range_succ, List.filterMap_append]
  cases h : cond n <;> simp [h]

theorem alookup_mkDict {α : Type} (n : ℕ) (cond : Nat → Bool) (f : Nat → α)
    (i : Nat) :
    alookup (mkDict n cond f) i
      = if i < n ∧ cond i = true then some (f i) else none := by
  induction n with
  | zero => simp [mkDict, alookup]
  | succ n ih =>
    rw [mkDict_succ, alookup_append, ih]
    by_cases hlt : i < n
    · by_cases hc : cond i = true
      · simp only [hlt, hc, and_self, if_true]
        have : i < n + 1 := by omega
        simp [this, hc]
      · simp only [hlt, hc, and_false, if_false]
        cases hcn : cond n with
        | false =>
          simp only [if_neg (by simp : ¬ (false = true)), alookup]
          have : ¬ (i < n + 1 ∧ cond i = true) := fun h => hc h.2
          simp [this]
        | true =>
          simp only [if_pos rfl, alookup]
          have hne : ¬ (n = i) := by omega
          have : ¬ (i < n + 1 ∧ cond i = true) := fun h => hc h.2
          simp [hne, this]
    · by_cases hi : i = n
      · subst hi
        simp only [hlt, false_and, if_false]
        cases hcn : cond i with
        | false =>
          simp only [if_neg (by simp : ¬ (false = true)), alookup]
          have : ¬ (i < i + 1 ∧ cond i = true) := by simp [hcn]
          simp [this]
        | true =>
          simp only [if_pos rfl, alookup, if_pos rfl]
          have : i < i + 1 ∧ cond i = true := ⟨by omega, hcn⟩
          simp [this]
      · have h1 : ¬ (i < n + 1) := by omega
        simp only [hlt, false_and, if_false, h1]
        cases hcn : cond n with
        | false => simp [alookup]
        | true =>
          simp only [if_pos rfl, alookup]
          have hne : ¬ (n = i) := by omega
          simp [hne]

theorem mapFst_filterMap_cond {α : Type} (l : List Nat) (cond : Nat → Bool)
    (f : Nat → α) :
    (l.filterMap (fun i => if cond i then some (i, f i) else none)).map
        Prod.fst
      = l.filter cond := by
  induction l with
  | nil => simp
  | cons hd tl ih =>
    cases h : cond hd <;> simp [h, ih]

theorem mapFst_mkDict {α : Type} (n : ℕ) (cond : Nat → Bool) (f : Nat → α) :
    (mkDict n cond f).map Prod.fst = (List.range n).filter cond :=
  mapFst_filterMap_cond _ _ _

theorem satDict_mkDict (n : ℕ) (cond : Nat → Bool) (f : Nat → List Con)
    (i : Nat) (σ : Assign) :
    satDict (mkDict n cond f) i σ
      ↔ (i < n → cond i = true → ∀ c ∈ f i, c.sat σ) := by
  unfold satDict
  rw [alookup_mkDict]
  by_cases h : i < n ∧ cond i = true
  · rw [if_pos h]
    simp [h.1, h.2]
  · rw [if_neg h]
    push_neg at h
    constructor
    · intro _ h1 h2
      exact absurd (h h1) (by simp [h2])
    · intro _ c hc
      simp at hc

theorem foldl_add_range (n : ℕ) (h : ℕ → ℚ) (c : ℚ) :
    (List.range n).foldl (fun acc o => acc + h o) c
      = c + ∑ o in Finset.range n, h o := by
  induction n generalizing c with
  | zero => simp
  | succ n ih =>
    rw [List.range_succ, List.foldl_append, Finset.sum_range_succ, ih]
    simp [add_assoc]

theorem sum_filterMap_range (n : ℕ) (g : Nat → Option ℚ) :
    ((List.range n).filterMap g).sum = ∑ i in Finset.range n, ((g i).getD 0) := by
  induction n with
  | zero => simp
  | succ n ih =>
    rw [List.range_succ, List.filterMap_append, List.sum_append,
      Finset.sum_range_succ, ih]
    cases h : g n <;> simp [h]

theorem parentOf_isSome_lt (t : List PNode) (i : Nat) (p : Nat)
    (h : parentOf t i = some p) : i < t.length := by
  unfold parentOf at h
  cases hg : t.get? i with
  | none => rw [hg] at h; simp at h
  | some nd =>
    have := List.get?_eq_some.mp hg
    exact this.1

/-- Claim C1: in both stochastic-recourse assemblers the objective is the sum,
over every non-root node, of the at-price revenue at the node's realized
output prices minus the parent's imports priced at the node's realized crude
prices, each contribution divided by the number of nodes sharing the node's
stage, and the sense is maximize (for the cvxpy assembler, with the CVaR
option disabled, as its objective otherwise carries the extra CVaR term). -/
theorem claim_C1_objective (P : Params) (t : List PNode) (σ : Assign)
    (cvarFn : List ℚ → ℚ → ℚ) :
    pyoObjectiveSense = Sense.maximize
    ∧ cvxObjectiveSense = Sense.maximize
    ∧ pyoObjectiveVal P t σ
        = ∑ i in (Finset.range t.length).filter
            (fun i => (parentOf t i).isSome),
            ((∑ o in Finset.range P.products,
                σ.full i o * valueOf t i (keyPP o))
              - σ.light ((parentOf t i).getD 0) * valueOf t i "crude_light_price"
              - σ.heavy ((parentOf t i).getD 0) * valueOf t i "crude_heavy_price")
            / (stageCount t (stageOf t i) : ℚ)
    ∧ cvxObjectiveVal P t cvarFn none σ = pyoObjectiveVal P t σ := by
  refine ⟨rfl, rfl, ?_, ?_⟩
  · show (pyoNodeValues P t σ).sum = _
    unfold pyoNodeValues
    rw [sum_filterMap_range, Finset.sum_filter]
    refine Finset.sum_congr rfl (fun i _ => ?_)
    cases h : parentOf t i with
    | none => simp [h]
    | some p =>
      simp only [h, Option.getD_some, Option.isSome_some, if_true]
      rw [foldl_add_range, zero_add]
  · show (cvxNodeValues P t σ).sum - cvxCvarTerm P t cvarFn none σ = _
    rw [show cvxCvarTerm P t cvarFn none σ = 0 from rfl, sub_zero]
    rfl

/-- Claim C8: supplying the CVaR option with weight 0 leaves the cvxpy
objective mathematically equal to the plain expectation objective, for every
tree, every valuation and every tail threshold. -/
theorem claim_C8_cvar_zero_weight (P : Params) (t : List PNode)
    (cvarFn : List ℚ → ℚ → ℚ) (β : ℚ) (σ : Assign) :
    cvxObjectiveVal P t cvarFn (some (β, 0)) σ
      = cvxObjectiveVal P t cvarFn none σ := by
  unfold cvxObjectiveVal cvxCvarTerm
  simp

/-- Claim C2: in both assemblers, every non-root node receives, per
intermediate, an equality constraint (`Rel.eq`) equating the parent's
intermediate quantity with the sum over outputs of the node's routing
variable for that intermediate, and no other node receives this constraint
family. -/
theorem claim_C2_intermediate_conservation (P : Params) (t : List PNode)
    (i : Nat) :
    (∀ p, parentOf t i = some p →
      (∃ L, alookup (pyoInterRule P t) i = some L
        ∧ L.length = P.products
        ∧ ∀ prod, prod < P.products → ∃ c, L.get? prod = some c
            ∧ c.rel = Rel.eq
            ∧ ∀ σ, (c.sat σ ↔ σ.inter p prod
                = ∑ output in Finset.range P.products, σ.i2u i prod output))
      ∧ (∃ L, alookup (cvxInterRule P t) i = some L
        ∧ L.length = P.products
        ∧ ∀ prod, prod < P.products → ∃ c, L.get? prod = some c
            ∧ c.rel = Rel.eq
            ∧ ∀ σ, (c.sat σ ↔ σ.inter p prod
                = ∑ output in Finset.range P.products, σ.i2u i output prod)))
    ∧ (parentOf t i = none →
        alookup (pyoInterRule P t) i = none
        ∧ alookup (cvxInterRule P t) i = none) := by
  constructor
  · intro p hp
    have hlt : i < t.length := parentOf_isSome_lt t i p hp
    have hcond : nonRootCond t i = true := by
      unfold nonRootCond
      rw [hp]
      rfl
    constructor
    · have hl : alookup (pyoInterRule P t) i
          = some ((List.range P.products).map (fun prod =>
              (⟨Rel.eq, fun σ => σ.inter ((parentOf t i).getD 0) prod,
                fun σ => ∑ output in Finset.range P.products,
                  σ.i2u i prod output⟩ : Con))) := by
        unfold pyoInterRule
        rw [alookup_mkDict, if_pos ⟨hlt, hcond⟩]
      refine ⟨_, hl, by simp, ?_⟩
      intro prod hprod
      refine ⟨(⟨Rel.eq, fun σ => σ.inter ((parentOf t i).getD 0) prod,
          fun σ => ∑ output in Finset.range P.products,
            σ.i2u i prod output⟩ : Con), ?_, rfl, ?_⟩
      · rw [List.get?_map, List.get?_range hprod]
        rfl
      · intro σ
        show (σ.inter ((parentOf t i).getD 0) prod = _) ↔ _
        rw [hp]
        exact Iff.rfl
    · have hl : alookup (cvxInterRule P t) i
          = some ((List.range P.products).map (fun prod =>
              (⟨Rel.eq, fun σ => ∑ output in Finset.range P.products,
                  σ.i2u i output prod,
                fun σ => σ.inter ((parentOf t i).getD 0) prod⟩ : Con))) := by
        unfold cvxInterRule
        rw [alookup_mkDict, if_pos ⟨hlt, hcond⟩]
      refine ⟨_, hl, by simp, ?_⟩
      intro prod hprod
      refine ⟨(⟨Rel.eq, fun σ => ∑ output in Finset.range P.products,
          σ.i2u i output prod,
          fun σ => σ.inter ((parentOf t i).getD 0) prod⟩ : Con), ?_, rfl, ?_⟩
      · rw [List.get?_map, List.get?_range hprod]
        rfl
      · intro σ
        show ((∑ output in Finset.range P.products, σ.i2u i output prod)
            = σ.inter ((parentOf t i).getD 0) prod) ↔ _
        rw [hp]
        exact eq_comm
  · intro hp
    have hcond : nonRootCond t i = false := by
      unfold nonRootCond
      rw [hp]
      rfl
    constructor
    · unfold pyoInterRule
      rw [alookup_mkDict, if_neg (by simp [hcond])]
    · unfold cvxInterRule
      rw [alookup_mkDict, if_neg (by simp [hcond])]

/-- Witness for C2 at the two-node tree and its non-root node 1. -/
theorem claim_C2_witness :
    ∃ L, alookup (pyoInterRule sampleParams twoNodePTree) 1 = some L
      ∧ L.length = sampleParams.products
      ∧ ∀ prod, prod < sampleParams.products → ∃ c, L.get? prod = some c
          ∧ c.rel = Rel.eq
          ∧ ∀ σ, (c.sat σ ↔ σ.inter 0 prod
              = ∑ output in Finset.range sampleParams.products,
                  σ.i2u 1 prod output) :=
  (((claim_C2_intermediate_conservation sampleParams twoNodePTree 1).1 0
    rfl).1)

theorem forall_mem_map_range {γ : Type} (n : ℕ) (g : Nat → γ) (Q : γ → Prop) :
    (∀ c ∈ (List.range n).map g, Q c) ↔ ∀ k, k < n → Q (g k) := by
  constructor
  · intro h k hk
    exact h _ (List.mem_map_of_mem _ (List.mem_range.mpr hk))
  · intro h c hc
    obtain ⟨k, hk, rfl⟩ := List.mem_map.mp hc
    exact h k (List.mem_range.mp hk)

theorem forall_mem_flatMap_pair_range {γ : Type} (n : ℕ) (u v : Nat → γ)
    (Q : γ → Prop) :
    (∀ c ∈ (List.range n).flatMap (fun k => [u k, v k]), Q c)
      ↔ ∀ k, k < n → Q (u k) ∧ Q (v k) := by
  constructor
  · intro h k hk
    have hu : u k ∈ (List.range n).flatMap (fun k => [u k, v k]) :=
      List.mem_flatMap.mpr ⟨k, List.mem_range.mpr hk, by simp⟩
    have hv : v k ∈ (List.range n).flatMap (fun k => [u k, v k]) :=
      List.mem_flatMap.mpr ⟨k, List.mem_range.mpr hk, by simp⟩
    exact ⟨h _ hu, h _ hv⟩
  · intro h c hc
    obtain ⟨k, hk, hck⟩ := List.mem_flatMap.mp hc
    have hk2 := List.mem_range.mp hk
    rcases List.mem_cons.mp hck with h1 | h1
    · rw [h1]
      exact (h k hk2).1
    · rcases List.mem_cons.mp h1 with h2 | h2
      · rw [h2]
        exact (h k hk2).2
      · simp at h2

theorem pyoNonRecourseAux_eq_cvx (t : List PNode) :
    ∀ fuel q, pyoNonRecourseAux t fuel q = cvxNonRecourseAux t fuel q := by
  intro fuel
  induction fuel with
  | zero => intro q; rfl
  | succ fuel ih =>
    intro q
    cases q with
    | nil => rfl
    | cons hd tl => simp [pyoNonRecourseAux, cvxNonRecourseAux, ih]

theorem pyoRecourseAux_eq_cvx (t : List PNode) :
    ∀ fuel q, pyoRecourseAux t fuel q = cvxRecourseAux t fuel q := by
  intro fuel
  induction fuel with
  | zero => intro q; rfl
  | succ fuel ih =>
    intro q
    cases q with
    | nil => rfl
    | cons hd tl => simp [pyoRecourseAux, cvxRecourseAux, ih]

/-- Claim C9: on the same tree and parameters (CVaR and chance options
disabled), the pyomo and cvxpy assemblers allocate variables over the same
node subsets, emit the same constraint families over the same node subsets,
and build mathematically equal objectives with the same sense — the two
routing blocks being identified by the index transposition `transposeI2U`
(pyomo addresses the block as (intermediate, output), cvxpy as
(output, intermediate)). -/
theorem claim_C9_pyo_cvx_equivalence (P : Params) (t : List PNode) :
    pyoNonRecourseKeys t = cvxNonRecourseKeys t
    ∧ pyoRecourseKeys t = cvxRecourseKeys t
    ∧ (pyoDistil P t).map Prod.fst = (cvxDistil P t).map Prod.fst
    ∧ (pyoDistilCap P t).map Prod.fst = (cvxDistilCap P t).map Prod.fst
    ∧ (pyoProductOut P t).map Prod.fst = (cvxProductOut P t).map Prod.fst
    ∧ (pyoRefineCap P t).map Prod.fst = (cvxRefineCap P t).map Prod.fst
    ∧ (pyoInterRule P t).map Prod.fst = (cvxInterRule P t).map Prod.fst
    ∧ (pyoBreakdown P t).map Prod.fst = (cvxBreakdown P t).map Prod.fst
    ∧ (pyoDemand P t).map Prod.fst = (cvxDemand P t).map Prod.fst
    ∧ (pyoInterstage P t).map Prod.fst = (cvxInterstageUpper P t).map Prod.fst
    ∧ (pyoInterstage P t).map Prod.fst = (cvxInterstageLower P t).map Prod.fst
    ∧ (∀ i σ, satDict (pyoDistil P t) i σ
        ↔ satDict (cvxDistil P t) i (transposeI2U σ))
    ∧ (∀ i σ, satDict (pyoDistilCap P t) i σ
        ↔ satDict (cvxDistilCap P t) i (transposeI2U σ))
    ∧ (∀ i σ, satDict (pyoProductOut P t) i σ
        ↔ satDict (cvxProductOut P t) i (transposeI2U σ))
    ∧ (∀ i σ, satDict (pyoRefineCap P t) i σ
        ↔ satDict (cvxRefineCap P t) i (transposeI2U σ))
    ∧ (∀ i σ, satDict (pyoInterRule P t) i σ
        ↔ satDict (cvxInterRule P t) i (transposeI2U σ))
    ∧ (∀ i σ, satDict (pyoBreakdown P t) i σ
        ↔ satDict (cvxBreakdown P t) i (transposeI2U σ))
    ∧ (∀ i σ, satDict (pyoDemand P t) i σ
        ↔ satDict (cvxDemand P t) i (transposeI2U σ))
    ∧ (∀ i σ, satDict (pyoInterstage P t) i σ
        ↔ (satDict (cvxInterstageUpper P t) i (transposeI2U σ)
            ∧ satDict (cvxInterstageLower P t) i (transposeI2U σ)))
    ∧ pyoObjectiveSense = cvxObjectiveSense
    ∧ (∀ σ (cvarFn : List ℚ → ℚ → ℚ),
        pyoObjectiveVal P t σ
          = cvxObjectiveVal P t cvarFn none (transposeI2U σ)) := by
  refine ⟨?_, ?_, rfl, rfl, ?_, ?_, ?_, rfl, rfl, ?_, ?_, ?_, ?_, ?_, ?_, ?_,
    ?_, ?_, ?_, rfl, ?_⟩
  · exact pyoNonRecourseAux_eq_cvx t t.length [0]
  · exact pyoRecourseAux_eq_cvx t t.length (childIdxsOf t 0)
  · unfold pyoProductOut cvxProductOut
    rw [mapFst_mkDict, mapFst_mkDict]
  · unfold pyoRefineCap cvxRefineCap
    rw [mapFst_mkDict, mapFst_mkDict]
  · unfold pyoInterRule cvxInterRule
    rw [mapFst_mkDict, mapFst_mkDict]
  · unfold pyoInterstage cvxInterstageUpper
    rw [mapFst_mkDict, mapFst_mkDict]
  · unfold pyoInterstage cvxInterstageLower
    rw [mapFst_mkDict, mapFst_mkDict]
  · intro i σ
    unfold pyoDistil cvxDistil
    rw [satDict_mkDict, satDict_mkDict]
    simp only [forall_mem_map_range]
    exact Iff.rfl
  · intro i σ
    unfold pyoDistilCap cvxDistilCap
    rw [satDict_mkDict, satDict_mkDict]
    simp only [List.mem_singleton, forall_eq]
    exact Iff.rfl
  · intro i σ
    unfold pyoProductOut cvxProductOut
    rw [satDict_mkDict, satDict_mkDict]
    simp only [forall_mem_map_range]
    exact Iff.rfl
  · intro i σ
    unfold pyoRefineCap cvxRefineCap
    rw [satDict_mkDict, satDict_mkDict]
    simp only [forall_mem_map_range]
    exact Iff.rfl
  · intro i σ
    unfold pyoInterRule cvxInterRule
    rw [satDict_mkDict, satDict_mkDict]
    simp only [forall_mem_map_range]
    constructor
    · intro h h1 h2 k hk
      exact (h h1 h2 k hk).symm
    · intro h h1 h2 k hk
      exact (h h1 h2 k hk).symm
  · intro i σ
    unfold pyoBreakdown cvxBreakdown
    rw [satDict_mkDict, satDict_mkDict]
    simp only [forall_mem_map_range]
    exact Iff.rfl
  · intro i σ
    unfold pyoDemand cvxDemand
    rw [satDict_mkDict, satDict_mkDict]
    simp only [forall_mem_map_range]
    exact Iff.rfl
  · intro i σ
    unfold pyoInterstage cvxInterstageUpper cvxInterstageLower
    rw [satDict_mkDict, satDict_mkDict, satDict_mkDict]
    simp only [forall_mem_flatMap_pair_range, forall_mem_map_range]
    constructor
    · intro h
      exact ⟨fun h1 h2 k hk => (h h1 h2 k hk).1,
        fun h1 h2 k hk => (h h1 h2 k hk).2⟩
    · intro h h1 h2 k hk
      exact ⟨h.1 h1 h2 k hk, h.2 h1 h2 k hk⟩
  · intro σ cvarFn
    show _ = (cvxNodeValues P t (transposeI2U σ)).sum
      - cvxCvarTerm P t cvarFn none (transposeI2U σ)
    rw [show cvxCvarTerm P t cvarFn none (transposeI2U σ) = 0 from rfl,
      sub_zero]
    rfl

theorem pyoNonRecourseAux_mem (t : List PNode) :
    ∀ fuel q, (∀ i ∈ q, i = 0 ∨ childIdxsOf t i ≠ []) →
      ∀ i ∈ pyoNonRecourseAux t fuel q, i = 0 ∨ childIdxsOf t i ≠ [] := by
  intro fuel
  induction fuel with
  | zero =>
    intro q hq i hi
    simp [pyoNonRecourseAux] at hi
  | succ fuel ih =>
    intro q hq i hi
    cases q with
    | nil => simp [pyoNonRecourseAux] at hi
    | cons hd tl =>
      rw [pyoNonRecourseAux] at hi
      rcases List.mem_cons.mp hi with h | h
      · exact h ▸ hq hd (List.mem_cons_self hd tl)
      · refine ih _ ?_ i h
        intro j hj
        rcases List.mem_append.mp hj with hj1 | hj1
        · exact hq j (List.mem_cons_of_mem hd hj1)
        · right
          have := (List.mem_filter.mp hj1).2
          simp only [Bool.not_eq_true', List.isEmpty_eq_false] at this
          simpa using this

theorem pyoRecourseAux_pos (t : List PNode)
    (hfw : ∀ j c, c ∈ childIdxsOf t j → j < c) :
    ∀ fuel q, (∀ i ∈ q, 0 < i) → ∀ i ∈ pyoRecourseAux t fuel q, 0 < i := by
  intro fuel
  induction fuel with
  | zero =>
    intro q hq i hi
    simp [pyoRecourseAux] at hi
  | succ fuel ih =>
    intro q hq i hi
    cases q with
    | nil => simp [pyoRecourseAux] at hi
    | cons hd tl =>
      rw [pyoRecourseAux] at hi
      rcases List.mem_cons.mp hi with h | h
      · exact h ▸ hq hd (List.mem_cons_self hd tl)
      · refine ih _ ?_ i h
        intro j hj
        rcases List.mem_append.mp hj with hj1 | hj1
        · exact hq j (List.mem_cons_of_mem hd hj1)
        · have := hfw hd j hj1
          omega

/-- Claim C3, amended: non-recourse allocation assigns a variable to the root
unconditionally (even when the root is terminal) and otherwise only to nodes
with children, so no non-root terminal node receives one; recourse allocation
never assigns a variable to the root (for trees whose child indices point
forward, as in every generated tree). -/
theorem claim_C3_amended (t : List PNode) :
    (∀ i ∈ pyoNonRecourseKeys t, i = 0 ∨ childIdxsOf t i ≠ [])
    ∧ ((∀ j c, c ∈ childIdxsOf t j → j < c) →
        ∀ i ∈ pyoRecourseKeys t, 0 < i) := by
  constructor
  · refine pyoNonRecourseAux_mem t t.length [0] ?_
    intro i hi
    left
    simpa using hi
  · intro hfw
    refine pyoRecourseAux_pos t hfw t.length (childIdxsOf t 0) ?_
    intro i hi
    have := hfw 0 i hi
    omega

/-- Witness for the amended C3 at the two-node tree: the recourse keys are
exactly the non-root node, and allocation indeed avoided the root. -/
theorem claim_C3_amended_witness :
    pyoRecourseKeys twoNodePTree = [1] ∧ (0 : ℕ) < 1 := by
  constructor
  · rfl
  · refine (claim_C3_amended twoNodePTree).2 ?_ 1 ?_
    · intro j c hc
      match j with
      | 0 =>
        have : c ∈ [1] := hc
        have : c = 1 := by simpa using this
        omega
      | 1 =>
        have : c ∈ ([] : List ℕ) := hc
        simp at this
      | n + 2 =>
        have : c ∈ ([] : List ℕ) := hc
        simp at this
    · rw [show pyoRecourseKeys twoNodePTree = [1] from rfl]
      exact List.mem_singleton_self 1

theorem length_appendChildren (l : List BNode) (k : Nat) (cs : List Nat) :
    (appendChildren l k cs).length = l.length := by
  induction l generalizing k with
  | nil => rfl
  | cons hd tl ih =>
    cases k with
    | zero => rfl
    | succ k => simp [appendChildren, ih]

theorem get?_appendChildren (l : List BNode) (k : Nat) (cs : List Nat)
    (j : Nat) :
    (appendChildren l k cs).get? j
      = if j = k then
          (l.get? j).map (fun nd => { nd with childIdxs := nd.childIdxs ++ cs })
        else l.get? j := by
  induction l generalizing k j with
  | nil =>
    cases k <;> cases j <;> simp [appendChildren]
  | cons hd tl ih =>
    cases k with
    | zero =>
      cases j with
      | zero => simp [appendChildren]
      | succ j => simp [appendChildren]
    | succ k =>
      cases j with
      | zero => simp [appendChildren]
      | succ j =>
        have := ih k j
        simpa [appendChildren] using this

theorem childValsAux_dom (walk_std walk_max : List ℚ) (tp : Option ℤ)
    (draws : Nat → ℚ) (pvals : List (String × ℚ)) :
    ∀ (vs : List String) (i ctr : Nat) (acc out : List (String × ℚ))
      (ctr2 : Nat),
      childValsAux walk_std walk_max tp draws pvals vs i ctr acc
        = .ok (out, ctr2) →
      ∀ v, (v ∈ vs ∨ (dictGet acc v).isSome) → (dictGet out v).isSome := by
  intro vs
  induction vs with
  | nil =>
    intro i ctr acc out ctr2 h v hv
    simp only [childValsAux] at h
    obtain ⟨rfl, rfl⟩ : acc = out ∧ ctr = ctr2 := by
      constructor <;> [exact congrArg Prod.fst (Except.ok.inj h);
        exact congrArg Prod.snd (Except.ok.inj h)]
    rcases hv with hv | hv
    · simp at hv
    · exact hv
  | cons v0 vs ih =>
    intro i ctr acc out ctr2 h v hv
    rw [childValsAux] at h
    cases h1 : walk_std.get? i with
    | none => rw [h1] at h; exact absurd h (by simp)
    | some s =>
      rw [h1] at h
      cases h2 : walk_max.get? i with
      | none => rw [h2] at h; exact absurd h (by simp)
      | some m =>
        rw [h2] at h
        cases h3 : dictGet pvals v0 with
        | none => rw [h3] at h; exact absurd h (by simp)
        | some pv =>
          rw [h3] at h
          refine ih (i + 1) (ctr + 1) _ out ctr2 h v ?_
          rcases hv with hv | hv
          · rcases List.mem_cons.mp hv with rfl | hv2
            · right
              rw [dictGet_dictSet]
              simp
            · left
              exact hv2
          · right
            exact dictGet_isSome_dictSet _ _ _ _ hv

theorem childValsAux_preserve (walk_std walk_max : List ℚ) (tp : Option ℤ)
    (draws : Nat → ℚ) (pvals : List (String × ℚ)) :
    ∀ (vs : List String) (i ctr : Nat) (acc out : List (String × ℚ))
      (ctr2 : Nat),
      childValsAux walk_std walk_max tp draws pvals vs i ctr acc
        = .ok (out, ctr2) →
      ∀ v, v ∉ vs → dictGet out v = dictGet acc v := by
  intro vs
  induction vs with
  | nil =>
    intro i ctr acc out ctr2 h v _
    simp only [childValsAux] at h
    have : acc = out := congrArg Prod.fst (Except.ok.inj h)
    rw [this]
  | cons v0 vs ih =>
    intro i ctr acc out ctr2 h v hv
    rw [childValsAux] at h
    cases h1 : walk_std.get? i with
    | none => rw [h1] at h; exact absurd h (by simp)
    | some s =>
      rw [h1] at h
      cases h2 : walk_max.get? i with
      | none => rw [h2] at h; exact absurd h (by simp)
      | some m =>
        rw [h2] at h
        cases h3 : dictGet pvals v0 with
        | none => rw [h3] at h; exact absurd h (by simp)
        | some pv =>
          rw [h3] at h
          have hv0 : v ≠ v0 := fun he => hv (he ▸ List.mem_cons_self v0 vs)
          have hvs : v ∉ vs := fun he => hv (List.mem_cons_of_mem v0 he)
          have hne : ¬ v0 = v := fun he => hv0 he.symm
          rw [ih (i + 1) (ctr + 1) _ out ctr2 h v hvs, dictGet_dictSet]
          simp [hne]

theorem childValsAux_val (walk_std walk_max : List ℚ) (tp : Option ℤ)
    (draws : Nat → ℚ) (pvals : List (String × ℚ)) :
    ∀ (vs : List String) (i ctr : Nat) (acc out : List (String × ℚ))
      (ctr2 : Nat),
      childValsAux walk_std walk_max tp draws pvals vs i ctr acc
        = .ok (out, ctr2) →
      vs.Nodup →
      ∀ k v, vs.get? k = some v →
        ∃ m x d, walk_max.get? (i + k) = some m
          ∧ dictGet pvals v = some x
          ∧ dictGet out v = some (x + applyTrunc tp (clipQ d (-m) m)) := by
  intro vs
  induction vs with
  | nil =>
    intro i ctr acc out ctr2 h _ k v hk
    simp at hk
  | cons v0 vs ih =>
    intro i ctr acc out ctr2 h hnd k v hk
    rw [childValsAux] at h
    cases h1 : walk_std.get? i with
    | none => rw [h1] at h; exact absurd h (by simp)
    | some s =>
      rw [h1] at h
      cases h2 : walk_max.get? i with
      | none => rw [h2] at h; exact absurd h (by simp)
      | some m =>
        rw [h2] at h
        cases h3 : dictGet pvals v0 with
        | none => rw [h3] at h; exact absurd h (by simp)
        | some pv =>
          rw [h3] at h
          cases k with
          | zero =>
            have hv : v = v0 := by
              simp at hk
              exact hk.symm
            subst hv
            have hnotin : v ∉ vs := (List.nodup_cons.mp hnd).1
            have hpres := childValsAux_preserve walk_std walk_max tp draws
              pvals vs (i + 1) (ctr + 1) _ out ctr2 h v hnotin
            refine ⟨m, pv, draws ctr, ?_, h3, ?_⟩
            · simpa using h2
            · rw [hpres, dictGet_dictSet]
              simp
          | succ k =>
            have hk2 : vs.get? k = some v := by simpa using hk
            obtain ⟨m2, x, d, hm, hx, hout⟩ := ih (i + 1) (ctr + 1) _ out ctr2
              h (List.nodup_cons.mp hnd).2 k v hk2
            refine ⟨m2, x, d, ?_, hx, hout⟩
            have : i + 1 + k = i + (k + 1) := by omega
            rwa [this] at hm

theorem childValsAux_ok (walk_std walk_max : List ℚ) (tp : Option ℤ)
    (draws : Nat → ℚ) (pvals : List (String × ℚ)) :
    ∀ (vs : List String) (i ctr : Nat) (acc : List (String × ℚ)),
      i + vs.length ≤ walk_std.length →
      i + vs.length ≤ walk_max.length →
      (∀ v ∈ vs, (dictGet pvals v).isSome) →
      ∃ out ctr2, childValsAux walk_std walk_max tp draws pvals vs i ctr acc
        = .ok (out, ctr2) := by
  intro vs
  induction vs with
  | nil =>
    intro i ctr acc _ _ _
    exact ⟨acc, ctr, rfl⟩
  | cons v0 vs ih =>
    intro i ctr acc hstd hmx hdom
    have hstd2 : i < walk_std.length := by
      simp only [List.length_cons] at hstd
      omega
    have hmx2 : i < walk_max.length := by
      simp only [List.length_cons] at hmx
      omega
    obtain ⟨s, hs⟩ : ∃ s, walk_std.get? i = some s := by
      cases hh : walk_std.get? i with
      | none =>
        have := List.get?_eq_none.mp hh
        omega
      | some s => exact ⟨s, rfl⟩
    obtain ⟨m, hm⟩ : ∃ m, walk_max.get? i = some m := by
      cases hh : walk_max.get? i with
      | none =>
        have := List.get?_eq_none.mp hh
        omega
      | some m => exact ⟨m, rfl⟩
    obtain ⟨pv, hpv⟩ : ∃ pv, dictGet pvals v0 = some pv :=
      Option.isSome_iff_exists.mp (hdom v0 (List.mem_cons_self v0 vs))
    simp only [childValsAux, hs, hm, hpv]
    refine ih (i + 1) (ctr + 1) _ ?_ ?_ ?_
    · simp only [List.length_cons] at hstd
      omega
    · simp only [List.length_cons] at hmx
      omega
    · intro v hv
      exact hdom v (List.mem_cons_of_mem v0 hv)

theorem makeChildren_spec (vars : List String) (walk_std walk_max : List ℚ)
    (tp : Option ℤ) (draws : Nat → ℚ) (pIdx : Nat) (pname : String)
    (pvals : List (String × ℚ)) (stg : ℤ) :
    ∀ (rem b : Nat) (arena : List BNode) (ctr : Nat) (acc : List Nat)
      (A2 : List BNode) (ctr2 : Nat) (idxs : List Nat),
      makeChildren vars walk_std walk_max tp draws pIdx pname pvals stg b rem
        arena ctr acc = .ok (A2, ctr2, idxs) →
      ∃ L : List BNode,
        A2 = arena ++ L
        ∧ L.length = rem
        ∧ idxs = acc ++ List.range' arena.length rem
        ∧ ∀ nd ∈ L, nd.parentIdx = some pIdx ∧ nd.stage = stg
            ∧ nd.childIdxs = []
            ∧ ∃ c1 c2, childValsAux walk_std walk_max tp draws pvals vars 0 c1
                [] = .ok (nd.vals, c2) := by
  intro rem
  induction rem with
  | zero =>
    intro b arena ctr acc A2 ctr2 idxs h
    simp only [makeChildren, Except.ok.injEq, Prod.mk.injEq] at h
    obtain ⟨rfl, -, rfl⟩ := h
    refine ⟨[], by simp, rfl, by simp, ?_⟩
    intro nd hnd
    simp at hnd
  | succ r ih =>
    intro b arena ctr acc A2 ctr2 idxs h
    rw [makeChildren] at h
    cases hcv : childValsAux walk_std walk_max tp draws pvals vars 0 ctr []
      with
    | error e =>
      rw [hcv] at h
      exact absurd h (by simp)
    | ok pr =>
      obtain ⟨cvals, ctr3⟩ := pr
      rw [hcv] at h
      obtain ⟨L, hA, hLen, hIdx, hProps⟩ :=
        ih (b + 1)
          (arena ++ [⟨pname ++ "_" ++ toString b, some pIdx, stg, [], cvals⟩])
          ctr3 (acc ++ [arena.length]) A2 ctr2 idxs h
      refine ⟨⟨pname ++ "_" ++ toString b, some pIdx, stg, [], cvals⟩ :: L,
        ?_, ?_, ?_, ?_⟩
      · rw [hA, List.append_assoc]
        rfl
      · simp [hLen]
      · rw [hIdx, List.length_append, List.length_singleton, List.range'_succ,
          List.append_assoc]
        rfl
      · intro nd hnd
        rcases List.mem_cons.mp hnd with rfl | hnd2
        · exact ⟨rfl, rfl, rfl, ctr, ctr3, hcv⟩
        · exact hProps nd hnd2

theorem processNode_spec (vars : List String) (walk_std walk_max : List ℚ)
    (tp : Option ℤ) (draws : Nat → ℚ) (stg : ℤ) (bf : Nat) (pIdx : Nat)
    (arena : List BNode) (ctr : Nat) (A2 : List BNode) (ctr2 : Nat)
    (idxs : List Nat)
    (h : processNode vars walk_std walk_max tp draws stg bf pIdx arena ctr
      = .ok (A2, ctr2, idxs)) :
    ∃ pnode L, arena.get? pIdx = some pnode
      ∧ idxs = List.range' arena.length bf
      ∧ L.length = bf
      ∧ (∀ nd ∈ L, nd.parentIdx = some pIdx ∧ nd.stage = stg
          ∧ nd.childIdxs = []
          ∧ ∃ c1 c2, childValsAux walk_std walk_max tp draws pnode.vals vars 0
              c1 [] = .ok (nd.vals, c2))
      ∧ A2 = appendChildren (arena ++ L) pIdx idxs := by
  unfold processNode at h
  cases hg : arena.get? pIdx with
  | none =>
    rw [hg] at h
    exact absurd h (by simp)
  | some pnode =>
    rw [hg] at h
    dsimp only at h
    cases hmk : makeChildren vars walk_std walk_max tp draws pIdx pnode.name
        pnode.vals stg 0 bf arena ctr [] with
    | error e =>
      rw [hmk] at h
      exact absurd h (by simp)
    | ok tr =>
      obtain ⟨a2, c2, ni⟩ := tr
      rw [hmk] at h
      simp only [Except.ok.injEq, Prod.mk.injEq] at h
      obtain ⟨hA2, hc2, hni⟩ := h
      obtain ⟨L, ha, hlen, hidx, hprops⟩ := makeChildren_spec vars walk_std
        walk_max tp draws pIdx pnode.name pnode.vals stg bf 0 arena ctr [] a2
        c2 ni hmk
      subst hA2 hni hc2 ha
      exact ⟨pnode, L, rfl, by simpa using hidx, hlen, hprops, rfl⟩

theorem get?_some_lt {α : Type} {l : List α} {n : Nat} {a : α}
    (h : l.get? n = some a) : n < l.length := by
  by_contra hcon
  rw [List.get?_eq_none.mpr (by omega)] at h
  exact absurd h (by simp)

theorem lt_get?_some {α : Type} {l : List α} {n : Nat} (h : n < l.length) :
    ∃ a, l.get? n = some a :=
  ⟨l.get ⟨n, h⟩, List.get?_eq_get h⟩

theorem processNode_inv (vars : List String) (walk_std walk_max : List ℚ)
    (tp : Option ℤ) (draws : Nat → ℚ) (stg : ℤ) (bf : Nat) (hbf : 1 ≤ bf)
    (p : Nat) (ps next : List Nat) (arena : List BNode) (ctr : Nat)
    (A2 : List BNode) (ctr2 : Nat) (idxs : List Nat)
    (h : processNode vars walk_std walk_max tp draws stg bf p arena ctr
      = .ok (A2, ctr2, idxs))
    (inv : MidInv vars walk_std walk_max tp draws arena (p :: ps) next stg) :
    MidInv vars walk_std walk_max tp draws A2 ps (next ++ idxs) stg
      ∧ A2.length = arena.length + bf
      ∧ idxs.length = bf := by
  obtain ⟨pnode, L, hg, hidx, hlen, hprops, hA2⟩ :=
    processNode_spec vars walk_std walk_max tp draws stg bf p arena ctr A2
      ctr2 idxs h
  have hplen : p < arena.length := inv.queue_valid p (by simp)
  have hpstage : pnode.stage = stg - 1 := by
    obtain ⟨nd0, hnd0, hst0⟩ := inv.rest_stage p (List.mem_cons_self p ps)
    rw [hg] at hnd0
    injection hnd0 with he
    rw [he]
    exact hst0
  have hlenA2 : A2.length = arena.length + bf := by
    rw [hA2, length_appendChildren, List.length_append, hlen]
  have hidxlen : idxs.length = bf := by
    rw [hidx]
    simp [List.length_range']
  have hgetA2 : ∀ j, A2.get? j
      = if j = p then
          ((arena ++ L).get? j).map
            (fun nd => { nd with childIdxs := nd.childIdxs ++ idxs })
        else (arena ++ L).get? j := by
    intro j
    rw [hA2, get?_appendChildren]
  have hold : ∀ j, j < arena.length → j ≠ p → A2.get? j = arena.get? j := by
    intro j hj hjp
    rw [hgetA2, if_neg hjp, List.get?_append hj]
  have hpA2 : A2.get? p
      = some { pnode with childIdxs := pnode.childIdxs ++ idxs } := by
    rw [hgetA2, if_pos rfl, List.get?_append hplen, hg]
    rfl
  have hnew : ∀ j, arena.length ≤ j →
      A2.get? j = L.get? (j - arena.length) := by
    intro j hj
    have hjp : j ≠ p := by omega
    rw [hgetA2, if_neg hjp, List.get?_append_right hj]
  have hmemidxs : ∀ j, j ∈ idxs ↔ arena.length ≤ j ∧ j < arena.length + bf := by
    intro j
    rw [hidx]
    constructor
    · intro hj
      have := List.mem_range'_1.mp hj
      omega
    · intro hj
      exact List.mem_range'_1.mpr (by omega)
  have hnewnd : ∀ j nd, arena.length ≤ j → A2.get? j = some nd →
      nd.parentIdx = some p ∧ nd.stage = stg ∧ nd.childIdxs = []
        ∧ (∃ c1 c2, childValsAux walk_std walk_max tp draws pnode.vals vars 0
            c1 [] = .ok (nd.vals, c2))
        ∧ j < arena.length + bf := by
    intro j nd hj hnd
    rw [hnew j hj] at hnd
    have hmem : nd ∈ L := List.get?_mem hnd
    have hjlt : j - arena.length < L.length := get?_some_lt hnd
    obtain ⟨h1, h2, h3, h4⟩ := hprops nd hmem
    exact ⟨h1, h2, h3, h4, by omega⟩
  have hnewex : ∀ j, arena.length ≤ j → j < arena.length + bf →
      ∃ nd, A2.get? j = some nd := by
    intro j hj1 hj2
    rw [hnew j hj1]
    exact lt_get?_some (by omega)
  have holdnd : ∀ j nd, arena.get? j = some nd → j ≠ p →
      A2.get? j = some nd := by
    intro j nd hnd hjp
    rw [hold j (get?_some_lt hnd) hjp, hnd]
  have hvalsfixed : ∀ j nd, arena.get? j = some nd →
      ∃ nd2 cs, A2.get? j = some nd2
        ∧ nd2 = { nd with childIdxs := nd.childIdxs ++ cs } := by
    intro j nd hnd
    by_cases hjp : j = p
    · subst hjp
      rw [hg] at hnd
      injection hnd with he
      subst he
      exact ⟨_, idxs, hpA2, rfl⟩
    · refine ⟨nd, [], holdnd j nd hnd hjp, ?_⟩
      simp
  have hqnodup : p ∉ ps ∧ p ∉ next ∧ (ps ++ next).Nodup := by
    have := inv.queue_nodup
    rw [List.cons_append, List.nodup_cons] at this
    refine ⟨fun hc => this.1 (List.mem_append_left _ hc),
      fun hc => this.1 (List.mem_append_right _ hc), this.2⟩
  refine ⟨⟨?_, ?_, ?_, ?_, ?_, ?_, ?_, ?_, ?_⟩, hlenA2, hidxlen⟩
  · -- root_def
    obtain ⟨rt, hrt, h1, h2⟩ := inv.root_def
    obtain ⟨nd2, cs, hnd2, hform⟩ := hvalsfixed 0 rt hrt
    exact ⟨nd2, hnd2, by rw [hform]; exact h1, by rw [hform]; exact h2⟩
  · -- parent_link
    intro j nd hnd hj0
    by_cases hjlen : arena.length ≤ j
    · obtain ⟨h1, h2, h3, h4, h5⟩ := hnewnd j nd hjlen hnd
      refine ⟨p, _, h1, by omega, hpA2, ?_, ?_⟩
      · show nd.stage = pnode.stage + 1
        rw [h2, hpstage]
        ring
      · show j ∈ pnode.childIdxs ++ idxs
        exact List.mem_append_right _ ((hmemidxs j).mpr ⟨hjlen, h5⟩)
    · push_neg at hjlen
      by_cases hjp : j = p
      · subst hjp
        rw [hpA2] at hnd
        injection hnd with he
        subst he
        obtain ⟨q, qnd, hq1, hq2, hq3, hq4, hq5⟩ :=
          inv.parent_link j pnode hg hj0
        obtain ⟨qnd2, cs, hqnd2, hqform⟩ := hvalsfixed q qnd hq3
        refine ⟨q, qnd2, hq1, hq2, hqnd2, ?_, ?_⟩
        · show pnode.stage = qnd2.stage + 1
          rw [hqform]
          exact hq4
        · rw [hqform]
          exact List.mem_append_left _ hq5
      · have harena : arena.get? j = some nd := by
          rw [← hold j hjlen hjp]
          exact hnd
        obtain ⟨q, qnd, hq1, hq2, hq3, hq4, hq5⟩ :=
          inv.parent_link j nd harena hj0
        obtain ⟨qnd2, cs, hqnd2, hqform⟩ := hvalsfixed q qnd hq3
        refine ⟨q, qnd2, hq1, hq2, hqnd2, ?_, ?_⟩
        · rw [hqform]
          exact hq4
        · rw [hqform]
          exact List.mem_append_left _ hq5
  · -- child_link
    intro j nd c hnd hc
    by_cases hjlen : arena.length ≤ j
    · have h3 := (hnewnd j nd hjlen hnd).2.2.1
      rw [h3] at hc
      simp at hc
    · push_neg at hjlen
      by_cases hjp : j = p
      · subst hjp
        rw [hpA2] at hnd
        injection hnd with he
        subst he
        rcases List.mem_append.mp hc with hcold | hcnew
        · obtain ⟨hlt, cnd, hcnd, hcp⟩ := inv.child_link j pnode c hg hcold
          have hcne : c ≠ j := by omega
          exact ⟨hlt, cnd, holdnd c cnd hcnd (by omega), hcp⟩
        · have hcr := (hmemidxs c).mp hcnew
          obtain ⟨cnd, hcnd⟩ := hnewex c hcr.1 hcr.2
          have := (hnewnd c cnd hcr.1 hcnd).1
          exact ⟨by omega, cnd, hcnd, this⟩
      · have harena : arena.get? j = some nd := by
          rw [← hold j hjlen hjp]
          exact hnd
        obtain ⟨hlt, cnd, hcnd, hcp⟩ := inv.child_link j nd c harena hc
        by_cases hcp2 : c = p
        · subst hcp2
          rw [hg] at hcnd
          injection hcnd with he
          subst he
          exact ⟨hlt, _, hpA2, hcp⟩
        · exact ⟨hlt, cnd, holdnd c cnd hcnd hcp2, hcp⟩
  · -- frontier
    intro j nd hnd
    by_cases hjlen : arena.length ≤ j
    · obtain ⟨h1, h2, h3, h4, h5⟩ := hnewnd j nd hjlen hnd
      have hrhs : j ∈ ps ∨ j ∈ next ++ idxs :=
        Or.inr (List.mem_append_right _ ((hmemidxs j).mpr ⟨hjlen, h5⟩))
      exact iff_of_true h3 hrhs
    · push_neg at hjlen
      have hnotidxs : j ∉ idxs := fun hc => by
        have := (hmemidxs j).mp hc
        omega
      by_cases hjp : j = p
      · subst hjp
        rw [hpA2] at hnd
        injection hnd with he
        subst he
        have hne : pnode.childIdxs ++ idxs ≠ [] := by
          intro hc
          have : idxs = [] := (List.append_eq_nil.mp hc).2
          rw [this] at hidxlen
          simp at hidxlen
          omega
        have hrhs : ¬ (j ∈ ps ∨ j ∈ next ++ idxs) := by
          intro hc
          rcases hc with hc | hc
          · exact hqnodup.1 hc
          · rcases List.mem_append.mp hc with hc2 | hc2
            · exact hqnodup.2.1 hc2
            · exact hnotidxs hc2
        exact iff_of_false hne hrhs
      · have harena : arena.get? j = some nd := by
          rw [← hold j hjlen hjp]
          exact hnd
        have hfr := inv.frontier j nd harena
        constructor
        · intro hc
          rcases hfr.mp hc with hc2 | hc2
          · rcases List.mem_cons.mp hc2 with hc3 | hc3
            · exact absurd hc3 hjp
            · exact Or.inl hc3
          · exact Or.inr (List.mem_append_left _ hc2)
        · intro hc
          refine hfr.mpr ?_
          rcases hc with hc | hc
          · exact Or.inl (List.mem_cons_of_mem p hc)
          · rcases List.mem_append.mp hc with hc2 | hc2
            · exact Or.inr hc2
            · exact absurd hc2 hnotidxs
  · -- rest_stage
    intro j hj
    obtain ⟨nd, hnd, hst⟩ := inv.rest_stage j (List.mem_cons_of_mem p hj)
    have hjp : j ≠ p := fun he => hqnodup.1 (he ▸ hj)
    exact ⟨nd, holdnd j nd hnd hjp, hst⟩
  · -- next_stage
    intro j hj
    rcases List.mem_append.mp hj with hj2 | hj2
    · obtain ⟨nd, hnd, hst⟩ := inv.next_stage j hj2
      have hjp : j ≠ p := fun he => hqnodup.2.1 (he ▸ hj2)
      exact ⟨nd, holdnd j nd hnd hjp, hst⟩
    · have hcr := (hmemidxs j).mp hj2
      obtain ⟨nd, hnd⟩ := hnewex j hcr.1 hcr.2
      exact ⟨nd, hnd, (hnewnd j nd hcr.1 hnd).2.1⟩
  · -- queue_nodup
    rw [← List.append_assoc]
    refine List.Nodup.append hqnodup.2.2 (by rw [hidx]; exact List.nodup_range' _ _) ?_
    intro a ha hb
    have h1 : a < arena.length := inv.queue_valid a (by
      rcases List.mem_append.mp ha with hc | hc
      · exact List.mem_append_left _ (List.mem_cons_of_mem p hc)
      · exact List.mem_append_right _ hc)
    have h2 := (hmemidxs a).mp hb
    omega
  · -- queue_valid
    intro j hj
    rw [hlenA2]
    rcases List.mem_append.mp hj with hj2 | hj2
    · have := inv.queue_valid j
        (List.mem_append_left _ (List.mem_cons_of_mem p hj2))
      omega
    · rcases List.mem_append.mp hj2 with hj3 | hj3
      · have := inv.queue_valid j (List.mem_append_right _ hj3)
        omega
      · exact ((hmemidxs j).mp hj3).2
  · -- vals_link
    intro j nd hnd hj0
    by_cases hjlen : arena.length ≤ j
    · obtain ⟨h1, h2, h3, ⟨c1, c2, hcv⟩, h5⟩ := hnewnd j nd hjlen hnd
      exact ⟨p, _, c1, c2, h1, hpA2, hcv⟩
    · push_neg at hjlen
      by_cases hjp : j = p
      · subst hjp
        rw [hpA2] at hnd
        injection hnd with he
        subst he
        obtain ⟨q, qnd, c1, c2, hq1, hq2, hq3⟩ := inv.vals_link j pnode hg hj0
        obtain ⟨qnd2, cs, hqnd2, hqform⟩ := hvalsfixed q qnd hq2
        refine ⟨q, qnd2, c1, c2, hq1, hqnd2, ?_⟩
        rw [hqform]
        exact hq3
      · have harena : arena.get? j = some nd := by
          rw [← hold j hjlen hjp]
          exact hnd
        obtain ⟨q, qnd, c1, c2, hq1, hq2, hq3⟩ := inv.vals_link j nd harena hj0
        obtain ⟨qnd2, cs, hqnd2, hqform⟩ := hvalsfixed q qnd hq2
        refine ⟨q, qnd2, c1, c2, hq1, hqnd2, ?_⟩
        rw [hqform]
        exact hq3

theorem processStage_inv (vars : List String) (walk_std walk_max : List ℚ)
    (tp : Option ℤ) (draws : Nat → ℚ) (stg : ℤ) (bf : Nat) (hbf : 1 ≤ bf) :
    ∀ (rest : List Nat) (arena : List BNode) (ctr : Nat) (nextAcc : List Nat)
      (A2 : List BNode) (ctr2 : Nat) (next2 : List Nat),
      processStage vars walk_std walk_max tp draws stg bf rest arena ctr
        nextAcc = .ok (A2, ctr2, next2) →
      MidInv vars walk_std walk_max tp draws arena rest nextAcc stg →
      MidInv vars walk_std walk_max tp draws A2 [] next2 stg
        ∧ A2.length = arena.length + bf * rest.length
        ∧ next2.length = nextAcc.length + bf * rest.length := by
  intro rest
  induction rest with
  | nil =>
    intro arena ctr nextAcc A2 ctr2 next2 h inv
    simp only [processStage, Except.ok.injEq, Prod.mk.injEq] at h
    obtain ⟨rfl, -, rfl⟩ := h
    exact ⟨inv, by simp, by simp⟩
  | cons p ps ih =>
    intro arena ctr nextAcc A2 ctr2 next2 h inv
    rw [processStage] at h
    cases hpn : processNode vars walk_std walk_max tp draws stg bf p arena ctr
      with
    | error e =>
      rw [hpn] at h
      exact absurd h (by simp)
    | ok tr =>
      obtain ⟨a2, c2, ni⟩ := tr
      rw [hpn] at h
      obtain ⟨inv2, hlen2, hni⟩ := processNode_inv vars walk_std walk_max tp
        draws stg bf hbf p ps nextAcc arena ctr a2 c2 ni hpn inv
      obtain ⟨inv3, hlen3, hnext3⟩ := ih a2 c2 (nextAcc ++ ni) A2 ctr2 next2 h
        inv2
      refine ⟨inv3, ?_, ?_⟩
      · rw [hlen3, hlen2]
        simp only [List.length_cons]
        ring
      · rw [hnext3, List.length_append, hni]
        simp only [List.length_cons]
        ring

theorem midInv_shift (vars : List String) (walk_std walk_max : List ℚ)
    (tp : Option ℤ) (draws : Nat → ℚ) (arena : List BNode) (next : List Nat)
    (stg : ℤ)
    (inv : MidInv vars walk_std walk_max tp draws arena [] next stg) :
    MidInv vars walk_std walk_max tp draws arena next [] (stg + 1) := by
  refine ⟨inv.root_def, inv.parent_link, inv.child_link, ?_, ?_, ?_, ?_, ?_,
    inv.vals_link⟩
  · intro j nd hnd
    rw [inv.frontier j nd hnd]
    simp
  · intro j hj
    obtain ⟨nd, hnd, hst⟩ := inv.next_stage j hj
    exact ⟨nd, hnd, by rw [hst]; ring⟩
  · intro j hj
    simp at hj
  · have := inv.queue_nodup
    simpa using this
  · intro j hj
    refine inv.queue_valid j ?_
    simpa using hj

theorem buildStages_inv (vars : List String) (walk_std walk_max : List ℚ)
    (tp : Option ℤ) (draws : Nat → ℚ) (bf : Nat) (hbf : 1 ≤ bf) :
    ∀ (r : Nat) (stg : ℤ) (current : List Nat) (arena : List BNode)
      (ctr : Nat) (final : List BNode),
      buildStages vars walk_std walk_max tp draws bf r stg current arena ctr
        = .ok final →
      MidInv vars walk_std walk_max tp draws arena current [] stg →
      ∃ cur2, MidInv vars walk_std walk_max tp draws final cur2 [] (stg + r)
        ∧ final.length
            = arena.length
              + current.length * ∑ k in Finset.range r, bf ^ (k + 1) := by
  intro r
  induction r with
  | zero =>
    intro stg current arena ctr final h inv
    simp only [buildStages, Except.ok.injEq] at h
    subst h
    exact ⟨current, by simpa using inv, by simp⟩
  | succ r ih =>
    intro stg current arena ctr final h inv
    rw [buildStages] at h
    cases hps : processStage vars walk_std walk_max tp draws stg bf current
        arena ctr [] with
    | error e =>
      rw [hps] at h
      exact absurd h (by simp)
    | ok tr =>
      obtain ⟨a2, c2, next⟩ := tr
      rw [hps] at h
      obtain ⟨inv2, hlen2, hnext2⟩ := processStage_inv vars walk_std walk_max
        tp draws stg bf hbf current arena ctr [] a2 c2 next hps inv
      obtain ⟨cur2, inv3, hlen3⟩ := ih (stg + 1) next a2 c2 final h
        (midInv_shift vars walk_std walk_max tp draws a2 next stg inv2)
      refine ⟨cur2, ?_, ?_⟩
      · have : stg + 1 + (r : ℤ) = stg + ((r : ℕ) + 1 : ℕ) := by
          push_cast
          ring
        rwa [this] at inv3
      · rw [hlen3, hlen2, hnext2]
        simp only [List.length_nil, zero_add]
        have hmul : bf * ∑ k in Finset.range r, bf ^ (k + 1)
            = ∑ k in Finset.range r, bf ^ (k + 1 + 1) := by
          rw [Finset.mul_sum]
          refine Finset.sum_congr rfl fun k _ => ?_
          ring
        rw [Finset.sum_range_succ']
        calc arena.length + bf * current.length
              + bf * current.length * ∑ k in Finset.range r, bf ^ (k + 1)
            = arena.length + current.length
                * (bf * ∑ k in Finset.range r, bf ^ (k + 1) + bf) := by ring
          _ = arena.length + current.length
                * (∑ k in Finset.range r, bf ^ (k + 1 + 1) + bf ^ (0 + 1)) := by
              rw [hmul]
              norm_num

theorem midInv_init (vars : List String) (walk_std walk_max : List ℚ)
    (tp : Option ℤ) (draws : Nat → ℚ) (rvals : List (String × ℚ)) :
    MidInv vars walk_std walk_max tp draws [⟨"root", none, 0, [], rvals⟩]
      [0] [] 1 := by
  refine ⟨⟨_, rfl, rfl, rfl⟩, ?_, ?_, ?_, ?_, ?_, ?_, ?_, ?_⟩
  · intro j nd hnd hj0
    cases j with
    | zero => exact absurd rfl hj0
    | succ j => simp at hnd
  · intro j nd c hnd hc
    cases j with
    | zero =>
      injection hnd with he
      rw [← he] at hc
      simp at hc
    | succ j => simp at hnd
  · intro j nd hnd
    cases j with
    | zero =>
      injection hnd with he
      subst he
      simp
    | succ j => simp at hnd
  · intro j hj
    have hj0 : j = 0 := by simpa using hj
    subst hj0
    exact ⟨_, rfl, by norm_num⟩
  · intro j hj
    simp at hj
  · simp
  · intro j hj
    have hj0 : j = 0 := by simpa using hj
    subst hj0
    simp
  · intro j nd hnd hj0
    cases j with
    | zero => exact absurd rfl hj0
    | succ j => simp at hnd

/-- Claim C6: every tree the generator returns (for `stages ≥ 1` and
`branch_factor ≥ 1`) has a root of stage 0 with no parent at position 0 of
the flat list; every non-root node has exactly one parent, present in the
flat list, whose stage is one less; and a childless node occurs only at the
maximum generated stage `stages - 1`. -/
theorem claim_C6_tree_invariants (vars : List String)
    (start_val walk_std walk_max : List ℚ) (stages branch_factor : ℤ)
    (draws : Nat → ℚ) (tp : Option ℤ) (t : List BNode)
    (hst : 1 ≤ stages) (hbf : 1 ≤ branch_factor)
    (h : random_walk_tree_builder vars start_val walk_std walk_max stages
      branch_factor draws tp = .ok t) :
    (∃ rt, t.get? 0 = some rt ∧ rt.parentIdx = none ∧ rt.stage = 0)
    ∧ (∀ j nd, t.get? j = some nd → j ≠ 0 →
        ∃ p pnd, nd.parentIdx = some p ∧ t.get? p = some pnd
          ∧ nd.stage = pnd.stage + 1)
    ∧ (∀ j nd, t.get? j = some nd → nd.childIdxs = [] →
        nd.stage = stages - 1) := by
  unfold random_walk_tree_builder at h
  cases hrv : initRootVals vars start_val [] with
  | error e =>
    rw [hrv] at h
    exact absurd h (by simp)
  | ok rvals =>
    rw [hrv] at h
    have hbf2 : 1 ≤ branch_factor.toNat := by omega
    obtain ⟨cur2, inv, hlen⟩ := buildStages_inv vars walk_std walk_max tp
      draws branch_factor.toNat hbf2 (stages - 1).toNat 1 [0] _ 0 t h
      (midInv_init vars walk_std walk_max tp draws rvals)
    refine ⟨inv.root_def, ?_, ?_⟩
    · intro j nd hnd hj0
      obtain ⟨p, pnd, h1, h2, h3, h4, h5⟩ := inv.parent_link j nd hnd hj0
      exact ⟨p, pnd, h1, h3, h4⟩
    · intro j nd hnd hcl
      have hj : j ∈ cur2 ∨ j ∈ ([] : List Nat) := (inv.frontier j nd hnd).mp hcl
      rcases hj with hj | hj
      · obtain ⟨nd2, hnd2, hst2⟩ := inv.rest_stage j hj
        rw [hnd] at hnd2
        injection hnd2 with he
        subst he
        rw [hst2]
        have htn : ((stages - 1).toNat : ℤ) = stages - 1 := by omega
        rw [htn]
        ring
      · simp at hj

/-- Claim C7: for `stages ≥ 1` and `branch_factor ≥ 1`, the flat node list
of a generated tree has exactly `1 + bf + bf^2 + ... + bf^(stages-1)`
entries. -/
theorem claim_C7_node_count (vars : List String)
    (start_val walk_std walk_max : List ℚ) (stages branch_factor : ℤ)
    (draws : Nat → ℚ) (tp : Option ℤ) (t : List BNode)
    (hst : 1 ≤ stages) (hbf : 1 ≤ branch_factor)
    (h : random_walk_tree_builder vars start_val walk_std walk_max stages
      branch_factor draws tp = .ok t) :
    t.length = ∑ k in Finset.range stages.toNat, branch_factor.toNat ^ k := by
  unfold random_walk_tree_builder at h
  cases hrv : initRootVals vars start_val [] with
  | error e =>
    rw [hrv] at h
    exact absurd h (by simp)
  | ok rvals =>
    rw [hrv] at h
    have hbf2 : 1 ≤ branch_factor.toNat := by omega
    obtain ⟨cur2, inv, hlen⟩ := buildStages_inv vars walk_std walk_max tp
      draws branch_factor.toNat hbf2 (stages - 1).toNat 1 [0] _ 0 t h
      (midInv_init vars walk_std walk_max tp draws rvals)
    rw [hlen]
    have hr : stages.toNat = (stages - 1).toNat + 1 := by omega
    rw [hr, Finset.sum_range_succ']
    simp only [List.length_singleton, List.length_cons, List.length_nil,
      pow_zero]
    ring

/-- Witness for C6 at a concrete two-stage, branch-factor-1 build. -/
theorem claim_C6_witness :
    random_walk_tree_builder ["x"] [0] [1] [1] 2 1 (fun _ => 0) none
      = .ok sampleBuiltTree
    ∧ ((∃ rt, sampleBuiltTree.get? 0 = some rt ∧ rt.parentIdx = none
          ∧ rt.stage = 0)
      ∧ (∀ j nd, sampleBuiltTree.get? j = some nd → j ≠ 0 →
          ∃ p pnd, nd.parentIdx = some p ∧ sampleBuiltTree.get? p = some pnd
            ∧ nd.stage = pnd.stage + 1)
      ∧ (∀ j nd, sampleBuiltTree.get? j = some nd → nd.childIdxs = [] →
          nd.stage = 2 - 1)) := by
  have hb : random_walk_tree_builder ["x"] [0] [1] [1] 2 1 (fun _ => 0) none
      = .ok sampleBuiltTree := by
    norm_num [random_walk_tree_builder, initRootVals, buildStages,
      processStage, processNode, makeChildren, childValsAux, dictGet, dictSet,
      appendChildren, applyTrunc, clipQ, sampleBuiltTree, min_def, max_def]
    all_goals decide
  exact ⟨hb, claim_C6_tree_invariants ["x"] [0] [1] [1] 2 1 (fun _ => 0) none
    sampleBuiltTree (by norm_num) (by norm_num) hb⟩

/-- Witness for C7 at the same concrete build: 2 nodes, matching
`1 + 1^1`. -/
theorem claim_C7_witness :
    random_walk_tree_builder ["x"] [0] [1] [1] 2 1 (fun _ => 0) none
      = .ok sampleBuiltTree
    ∧ sampleBuiltTree.length
      = ∑ k in Finset.range (2 : ℤ).toNat, (1 : ℤ).toNat ^ k := by
  have hb : random_walk_tree_builder ["x"] [0] [1] [1] 2 1 (fun _ => 0) none
      = .ok sampleBuiltTree := by
    norm_num [random_walk_tree_builder, initRootVals, buildStages,
      processStage, processNode, makeChildren, childValsAux, dictGet, dictSet,
      appendChildren, applyTrunc, clipQ, sampleBuiltTree, min_def, max_def]
    all_goals decide
  exact ⟨hb, claim_C7_node_count ["x"] [0] [1] [1] 2 1 (fun _ => 0) none
    sampleBuiltTree (by norm_num) (by norm_num) hb⟩

/-- Claim C5, amended: every realized step is the clamped draw plus, when a
truncation precision `p` is supplied, a rounding correction of at most half a
unit in the last kept place — so the child-parent gap is bounded by
`walk_max + truncSlack` instead of plain `walk_max` (the original bound fails
under truncation, see the counterexample). -/
theorem claim_C5_amended (vars : List String)
    (start_val walk_std walk_max : List ℚ) (stages branch_factor : ℤ)
    (draws : Nat → ℚ) (tp : Option ℤ) (t : List BNode)
    (hbf : 1 ≤ branch_factor) (hnodup : vars.Nodup)
    (h : random_walk_tree_builder vars start_val walk_std walk_max stages
      branch_factor draws tp = .ok t) :
    ∀ j nd p pnd k v m,
      t.get? j = some nd → nd.parentIdx = some p → t.get? p = some pnd →
      vars.get? k = some v → walk_max.get? k = some m → 0 ≤ m →
      ∃ x y, dictGet pnd.vals v = some x ∧ dictGet nd.vals v = some y
        ∧ |y - x| ≤ m + truncSlack tp := by
  unfold random_walk_tree_builder at h
  cases hrv : initRootVals vars start_val [] with
  | error e =>
    rw [hrv] at h
    exact absurd h (by simp)
  | ok rvals =>
    rw [hrv] at h
    have hbf2 : 1 ≤ branch_factor.toNat := by omega
    obtain ⟨cur2, inv, hlen⟩ := buildStages_inv vars walk_std walk_max tp
      draws branch_factor.toNat hbf2 (stages - 1).toNat 1 [0] _ 0 t h
      (midInv_init vars walk_std walk_max tp draws rvals)
    intro j nd p pnd k v m hj hp hpnd hk hm hm0
    have hj0 : j ≠ 0 := by
      intro he
      subst he
      obtain ⟨rt, hrt, hrt1, -⟩ := inv.root_def
      rw [hj] at hrt
      injection hrt with he2
      rw [← he2] at hrt1
      rw [hrt1] at hp
      exact absurd hp (by simp)
    obtain ⟨p2, pnd2, c1, c2, hp2, hpnd2, hcv⟩ := inv.vals_link j nd hj hj0
    have hpe : p2 = p := by
      rw [hp] at hp2
      injection hp2 with he
      exact he.symm
    rw [hpe] at hpnd2
    have hpnde : pnd2 = pnd := by
      rw [hpnd] at hpnd2
      injection hpnd2 with he
      exact he.symm
    rw [hpnde] at hcv
    obtain ⟨m2, x, d, hm2, hx, hy⟩ := childValsAux_val walk_std walk_max tp
      draws pnd.vals vars 0 c1 [] nd.vals c2 hcv hnodup k v hk
    have hme : m2 = m := by
      rw [show (0 : Nat) + k = k from by omega, hm] at hm2
      injection hm2 with he
      exact he.symm
    rw [hme] at hy
    refine ⟨x, x + applyTrunc tp (clipQ d (-m) m), hx, hy, ?_⟩
    have harith : x + applyTrunc tp (clipQ d (-m) m) - x
        = applyTrunc tp (clipQ d (-m) m) := by ring
    rw [harith]
    exact abs_applyTrunc_clipQ_le tp d m hm0

/-- Witness for the amended C5 at the concrete two-node build (no
truncation): the one step taken is 0, within `walk_max + truncSlack = 1`. -/
theorem claim_C5_amended_witness :
    random_walk_tree_builder ["x"] [0] [1] [1] 2 1 (fun _ => 0) none
      = .ok sampleBuiltTree
    ∧ ∃ x y, dictGet (⟨"root", none, 0, [1], [("x", 0)]⟩ : BNode).vals "x"
          = some x
        ∧ dictGet (⟨"root_0", some 0, 1, [], [("x", 0)]⟩ : BNode).vals "x"
          = some y
        ∧ |y - x| ≤ 1 + truncSlack none := by
  have hb : random_walk_tree_builder ["x"] [0] [1] [1] 2 1 (fun _ => 0) none
      = .ok sampleBuiltTree := by
    norm_num [random_walk_tree_builder, initRootVals, buildStages,
      processStage, processNode, makeChildren, childValsAux, dictGet, dictSet,
      appendChildren, applyTrunc, clipQ, sampleBuiltTree, min_def, max_def]
    all_goals decide
  refine ⟨hb, ?_⟩
  exact claim_C5_amended ["x"] [0] [1] [1] 2 1 (fun _ => 0) none
    sampleBuiltTree (by norm_num) (by simp) hb 1 _ 0 _ 0 "x" 1 rfl rfl rfl
    rfl rfl (by norm_num)

theorem initRootVals_ok :
    ∀ (vs : List String) (sv : List ℚ) (acc : List (String × ℚ)),
      vs.length ≤ sv.length →
      ∃ out, initRootVals vs sv acc = .ok out
        ∧ ∀ v, (v ∈ vs ∨ (dictGet acc v).isSome) → (dictGet out v).isSome := by
  intro vs
  induction vs with
  | nil =>
    intro sv acc _
    refine ⟨acc, rfl, ?_⟩
    intro v hv
    rcases hv with hv | hv
    · simp at hv
    · exact hv
  | cons v0 vs ih =>
    intro sv acc hlen
    cases sv with
    | nil => simp at hlen
    | cons s ss =>
      simp only [List.length_cons] at hlen
      obtain ⟨out, hout, hdom⟩ := ih ss (dictSet acc v0 s) (by omega)
      refine ⟨out, hout, ?_⟩
      intro v hv
      rcases hv with hv | hv
      · rcases List.mem_cons.mp hv with rfl | hv2
        · refine hdom v (Or.inr ?_)
          rw [dictGet_dictSet]
          simp
        · exact hdom v (Or.inl hv2)
      · exact hdom v (Or.inr (dictGet_isSome_dictSet _ _ _ _ hv))

theorem initRootVals_error :
    ∀ (vs : List String) (sv : List ℚ) (acc : List (String × ℚ)),
      sv.length < vs.length →
      initRootVals vs sv acc = .error "IndexError: start_val" := by
  intro vs
  induction vs with
  | nil =>
    intro sv acc hlen
    simp at hlen
  | cons v0 vs ih =>
    intro sv acc hlen
    cases sv with
    | nil => rfl
    | cons s ss =>
      simp only [List.length_cons] at hlen
      exact ih ss (dictSet acc v0 s) (by omega)

theorem makeChildren_ok (vars : List String) (walk_std walk_max : List ℚ)
    (tp : Option ℤ) (draws : Nat → ℚ) (pIdx : Nat) (pname : String)
    (pvals : List (String × ℚ)) (stg : ℤ)
    (hstd : vars.length ≤ walk_std.length)
    (hmx : vars.length ≤ walk_max.length)
    (hdom : ∀ v ∈ vars, (dictGet pvals v).isSome) :
    ∀ (rem b : Nat) (arena : List BNode) (ctr : Nat) (acc : List Nat),
      ∃ out, makeChildren vars walk_std walk_max tp draws pIdx pname pvals stg
        b rem arena ctr acc = .ok out := by
  intro rem
  induction rem with
  | zero =>
    intro b arena ctr acc
    exact ⟨(arena, ctr, acc), rfl⟩
  | succ r ih =>
    intro b arena ctr acc
    obtain ⟨cv, c2, hcv⟩ := childValsAux_ok walk_std walk_max tp draws pvals
      vars 0 ctr [] (by omega) (by omega) hdom
    obtain ⟨out, hout⟩ := ih (b + 1)
      (arena ++ [⟨pname ++ "_" ++ toString b, some pIdx, stg, [], cv⟩]) c2
      (acc ++ [arena.length])
    refine ⟨out, ?_⟩
    rw [makeChildren, hcv]
    exact hout

theorem allDom_processNode (vars : List String) (walk_std walk_max : List ℚ)
    (tp : Option ℤ) (draws : Nat → ℚ) (stg : ℤ) (bf : Nat) (pIdx : Nat)
    (arena : List BNode) (ctr : Nat) (A2 : List BNode) (ctr2 : Nat)
    (idxs : List Nat)
    (h : processNode vars walk_std walk_max tp draws stg bf pIdx arena ctr
      = .ok (A2, ctr2, idxs))
    (hdomA : AllDomOK vars arena) :
    AllDomOK vars A2 ∧ A2.length = arena.length + bf := by
  obtain ⟨pnode, L, hg, hidx, hlen, hprops, hA2⟩ :=
    processNode_spec vars walk_std walk_max tp draws stg bf pIdx arena ctr A2
      ctr2 idxs h
  constructor
  · intro j nd hnd
    rw [hA2, get?_appendChildren] at hnd
    have hcore : ∀ nd0, (arena ++ L).get? j = some nd0 →
        NodeDomOK vars nd0 := by
      intro nd0 hnd0
      by_cases hj : j < arena.length
      · rw [List.get?_append hj] at hnd0
        exact hdomA j nd0 hnd0
      · push_neg at hj
        rw [List.get?_append_right hj] at hnd0
        obtain ⟨-, -, -, c1, c2, hcv⟩ := hprops nd0 (List.get?_mem hnd0)
        intro v hv
        exact childValsAux_dom walk_std walk_max tp draws pnode.vals vars 0
          c1 [] nd0.vals c2 hcv v (Or.inl hv)
    by_cases hjp : j = pIdx
    · rw [if_pos hjp] at hnd
      cases hnd0 : (arena ++ L).get? j with
      | none =>
        rw [hnd0] at hnd
        simp at hnd
      | some nd0 =>
        rw [hnd0] at hnd
        simp only [Option.map_some'] at hnd
        injection hnd with he
        subst he
        exact hcore nd0 hnd0
    · rw [if_neg hjp] at hnd
      exact hcore nd hnd
  · rw [hA2, length_appendChildren, List.length_append, hlen]

theorem processStage_ok (vars : List String) (walk_std walk_max : List ℚ)
    (tp : Option ℤ) (draws : Nat → ℚ) (stg : ℤ) (bf : Nat)
    (hstd : vars.length ≤ walk_std.length)
    (hmx : vars.length ≤ walk_max.length) :
    ∀ (rest : List Nat) (arena : List BNode) (ctr : Nat) (na : List Nat),
      AllDomOK vars arena →
      (∀ p ∈ rest, p < arena.length) →
      ∃ A2 ctr2 n2,
        processStage vars walk_std walk_max tp draws stg bf rest arena ctr na
          = .ok (A2, ctr2, n2)
        ∧ AllDomOK vars A2 ∧ arena.length ≤ A2.length
        ∧ (∀ p ∈ n2, p ∈ na ∨ p < A2.length) := by
  intro rest
  induction rest with
  | nil =>
    intro arena ctr na hdomA hval
    exact ⟨arena, ctr, na, rfl, hdomA, le_refl _, fun p hp => Or.inl hp⟩
  | cons p ps ih =>
    intro arena ctr na hdomA hval
    have hplen : p < arena.length := hval p (List.mem_cons_self p ps)
    obtain ⟨pnode, hg⟩ := lt_get?_some hplen
    obtain ⟨⟨a2, c2, ni⟩, hmk⟩ := makeChildren_ok vars walk_std walk_max tp
      draws p pnode.name pnode.vals stg hstd hmx (hdomA p pnode hg) bf 0 arena
      ctr []
    have hpn : processNode vars walk_std walk_max tp draws stg bf p arena ctr
        = .ok (appendChildren a2 p ni, c2, ni) := by
      unfold processNode
      rw [hg]
      dsimp only
      rw [hmk]
    obtain ⟨hdomA2, hlen2⟩ := allDom_processNode vars walk_std walk_max tp
      draws stg bf p arena ctr _ c2 ni hpn hdomA
    obtain ⟨pnode2, L, -, hidx, -, -, -⟩ :=
      processNode_spec vars walk_std walk_max tp draws stg bf p arena ctr _
        c2 ni hpn
    obtain ⟨A3, c3, n3, hps, hdomA3, hle3, hn3⟩ := ih (appendChildren a2 p ni)
      c2 (na ++ ni) hdomA2 (by
        intro q hq
        have := hval q (List.mem_cons_of_mem p hq)
        omega)
    refine ⟨A3, c3, n3, ?_, hdomA3, by omega, ?_⟩
    · rw [processStage, hpn]
      exact hps
    · intro q hq
      rcases hn3 q hq with hq2 | hq2
      · rcases List.mem_append.mp hq2 with hq3 | hq3
        · exact Or.inl hq3
        · right
          rw [hidx] at hq3
          have := List.mem_range'_1.mp hq3
          omega
      · exact Or.inr hq2

theorem buildStages_ok (vars : List String) (walk_std walk_max : List ℚ)
    (tp : Option ℤ) (draws : Nat → ℚ) (bf : Nat)
    (hstd : vars.length ≤ walk_std.length)
    (hmx : vars.length ≤ walk_max.length) :
    ∀ (r : Nat) (stg : ℤ) (current : List Nat) (arena : List BNode)
      (ctr : Nat),
      AllDomOK vars arena →
      (∀ p ∈ current, p < arena.length) →
      ∃ final, buildStages vars walk_std walk_max tp draws bf r stg current
        arena ctr = .ok final := by
  intro r
  induction r with
  | zero =>
    intro stg current arena ctr _ _
    exact ⟨arena, rfl⟩
  | succ r ih =>
    intro stg current arena ctr hdomA hval
    obtain ⟨A2, c2, n2, hps, hdomA2, hle2, hn2⟩ := processStage_ok vars
      walk_std walk_max tp draws stg bf hstd hmx current arena ctr [] hdomA
      hval
    obtain ⟨final, hfin⟩ := ih (stg + 1) n2 A2 c2 hdomA2 (by
      intro q hq
      rcases hn2 q hq with hq2 | hq2
      · simp at hq2
      · exact hq2)
    refine ⟨final, ?_⟩
    rw [buildStages, hps]
    exact hfin

/-- Claim C4, amended: `random_walk_tree_builder` performs no validation of
`stages` or `branch_factor` — for every integer value of either (including
values below 1) it returns a tree whenever each per-variable parameter list
is at least as long as the variable list; it raises `IndexError` only when a
missing index is actually accessed, e.g. whenever the start-value list is
strictly shorter than the variable list. -/
theorem claim_C4_amended (vars : List String)
    (start_val walk_std walk_max : List ℚ) (stages branch_factor : ℤ)
    (draws : Nat → ℚ) (tp : Option ℤ)
    (hsv : vars.length ≤ start_val.length)
    (hstd : vars.length ≤ walk_std.length)
    (hmx : vars.length ≤ walk_max.length) :
    (∃ t, random_walk_tree_builder vars start_val walk_std walk_max stages
      branch_factor draws tp = .ok t)
    ∧ (∀ sv2 : List ℚ, sv2.length < vars.length →
        random_walk_tree_builder vars sv2 walk_std walk_max stages
          branch_factor draws tp = .error "IndexError: start_val") := by
  constructor
  · obtain ⟨rvals, hrv, hdom⟩ := initRootVals_ok vars start_val [] hsv
    obtain ⟨final, hfin⟩ := buildStages_ok vars walk_std walk_max tp draws
      branch_factor.toNat hstd hmx (stages - 1).toNat 1 [0]
      [⟨"root", none, 0, [], rvals⟩] 0 (by
        intro j nd hnd
        cases j with
        | zero =>
          injection hnd with he
          subst he
          intro v hv
          exact hdom v (Or.inl hv)
        | succ j => simp at hnd) (by
        intro p hp
        have hp0 : p = 0 := by simpa using hp
        subst hp0
        simp)
    refine ⟨final, ?_⟩
    unfold random_walk_tree_builder
    rw [hrv]
    exact hfin
  · intro sv2 hsv2
    unfold random_walk_tree_builder
    rw [initRootVals_error vars sv2 [] hsv2]

/-- Witness for the amended C4: with `stages = 5` and `branch_factor = 0`
(below the claimed minimum of 1) the builder still returns a tree, and an
empty start-value list makes it raise. -/
theorem claim_C4_amended_witness :
    (∃ t, random_walk_tree_builder ["x"] [0] [1] [1] 5 0 (fun _ => 0) none
      = .ok t)
    ∧ random_walk_tree_builder ["x"] [] [1] [1] 5 0 (fun _ => 0) none
      = .error "IndexError: start_val" :=
  ⟨(claim_C4_amended ["x"] [0] [1] [1] 5 0 (fun _ => 0) none (by norm_num)
      (by norm_num) (by norm_num)).1,
    (claim_C4_amended ["x"] [0] [1] [1] 5 0 (fun _ => 0) none (by norm_num)
      (by norm_num) (by norm_num)).2 [] (by norm_num)⟩

end PlantOpt
